import Mathlib

/-!
Shallow embedding of `ivy/functional/backends/numpy/statistical.py` —
the axis-wise cumulative reduction engine (cumsum, cumprod, cummax with
indices) and the variance policy, together with proofs of the spec's
claims about it.

Dense numpy arrays are modelled as nested lists of integers (`ND`).
Element values are `Int` (the dtype-normalisation step at the top of
`cummax` — bool → float64, int8/int16 → int64, complex → real — is the
identity on integer-valued data, so it does not appear in the value
model; the dtype *selection* policy is modelled separately on a `DType`
enumeration).  Python runtime failures (IndexError, KeyError, and the
`ValueError: truth value of an array is ambiguous` raised when an
array is used in a boolean context) are modelled with `Except String`.
-/

namespace IvyStat

/-- Inclusive left scan without a seed, helper: the running accumulator is
`acc` and every produced element includes the element at its position. -/
def scan1Go (f : α → α → α) (acc : α) : List α → List α
  | [] => []
  | b :: bs => f acc b :: scan1Go f (f acc b) bs

/-- Inclusive left scan without a seed: `scan1 f [a,b,c] = [a, f a b, f (f a b) c]`.
This is the semantics of `np.cumsum`/`np.cumprod`/`np.maximum.accumulate`
along one axis. -/
def scan1 (f : α → α → α) : List α → List α
  | [] => []
  | h :: t => h :: scan1Go f h t

/-- An N-dimensional dense array: a nested list with `Int` entries. -/
inductive ND where
  | leaf : Int → ND
  | node : List ND → ND
  deriving Repr

/-- Embed a 1-D integer array. -/
def ndOfList (x : List Int) : ND := .node (x.map .leaf)

/-- Embed a 2-D integer array given as a list of rows. -/
def ndOfMat (rows : List (List Int)) : ND := .node (rows.map ndOfList)

/-- Embed a 1-D array of (nonnegative) indices, as `np.array` of a python
list of ints produces. -/
def ndOfNat (l : List Nat) : ND := .node (l.map (fun n => .leaf (Int.ofNat n)))

/-- Embed a 2-D index array (list of index rows). -/
def ndOfNatMat (ls : List (List Nat)) : ND := .node (ls.map ndOfNat)

mutual
/-- Flattened element list of an array (row-major), as `np.ndarray.flatten`. -/
def leaves : ND → List Int
  | .leaf v => [v]
  | .node l => leavesL l
def leavesL : List ND → List Int
  | [] => []
  | a :: as => leaves a ++ leavesL as
end

mutual
/-- Elementwise combination of two same-shape arrays (numpy broadcasting
restricted to the same-shape case, which is the only one the engine hits). -/
def ndZip (f : Int → Int → Int) : ND → ND → ND
  | .leaf a, .leaf b => .leaf (f a b)
  | .node l, .node m => .node (ndZipL f l m)
  | a, _ => a
def ndZipL (f : Int → Int → Int) : List ND → List ND → List ND
  | [], _ => []
  | _ :: _, [] => []
  | a :: as, b :: bs => ndZip f a b :: ndZipL f as bs
end

mutual
/-- `np.zeros_like`. -/
def zerosLike : ND → ND
  | .leaf _ => .leaf 0
  | .node l => .node (zerosLikeL l)
def zerosLikeL : List ND → List ND
  | [] => []
  | a :: as => zerosLike a :: zerosLikeL as
end

mutual
/-- `np.ones_like`. -/
def onesLike : ND → ND
  | .leaf _ => .leaf 1
  | .node l => .node (onesLikeL l)
def onesLikeL : List ND → List ND
  | [] => []
  | a :: as => onesLike a :: onesLikeL as
end

mutual
/-- `np.flip(x, axis=axis)` for a nonnegative axis. -/
def ndFlip (axis : Nat) : ND → ND
  | .leaf v => .leaf v
  | .node l =>
    match axis with
    | 0 => .node l.reverse
    | a + 1 => .node (ndFlipL a l)
def ndFlipL (axis : Nat) : List ND → List ND
  | [] => []
  | x :: xs => ndFlip axis x :: ndFlipL axis xs
end

mutual
/-- The composite
`np.swapaxes(·, axis, -1)` ∘ `np.concatenate((fill_like(x[..., -1:]), x[..., :-1]), -1)`
∘ `np.swapaxes(·, axis, -1)` used by the exclusive variants: along `axis`,
drop the last slice and prepend a slice of fill values shaped like the last
slice.  Conjugation by the axis swap makes the last-axis concatenation act
on `axis`, which is what this direct recursion implements. -/
def exShift (fill : ND → ND) (axis : Nat) : ND → ND
  | .leaf v => .leaf v
  | .node l =>
    match axis with
    | 0 =>
      match l.getLast? with
      | none => .node []
      | some lst => .node (fill lst :: l.dropLast)
    | a + 1 => .node (exShiftL fill a l)
def exShiftL (fill : ND → ND) (axis : Nat) : List ND → List ND
  | [] => []
  | x :: xs => exShift fill axis x :: exShiftL fill axis xs
end

mutual
/-- Inclusive scan along `axis` with elementwise combination `f`: the common
semantics of `np.cumsum(x, axis)`, `np.cumprod(x, axis)` and
`np.maximum.accumulate(x, axis=axis)` for a nonnegative in-range axis. -/
def ndScan (f : Int → Int → Int) (axis : Nat) : ND → ND
  | .leaf v => .leaf v
  | .node l =>
    match axis with
    | 0 => .node (scan1 (ndZip f) l)
    | a + 1 => .node (ndScanL f a l)
def ndScanL (f : Int → Int → Int) (axis : Nat) : List ND → List ND
  | [] => []
  | x :: xs => ndScan f axis x :: ndScanL f axis xs
end

/-- The shape skeleton of an array: the nested structure with the element
values forgotten.  Two arrays have the same numpy shape (including all
sub-shapes, which numpy's regularity makes redundant) exactly when their
skeletons are equal. -/
inductive Skel where
  | leaf : Skel
  | node : List Skel → Skel
  deriving Repr

mutual
/-- Skeleton of an array. -/
def skel : ND → Skel
  | .leaf _ => .leaf
  | .node l => .node (skelL l)
def skelL : List ND → List Skel
  | [] => []
  | a :: as => skel a :: skelL as
end

/-- Regularity of a skeleton: all children of a node agree (numpy arrays
are always regular, nested python lists need not be). -/
def sreg : Skel → Prop
  | .leaf => True
  | .node [] => True
  | .node (h :: t) => sreg h ∧ ∀ s ∈ t, s = h

/-- Depth of a skeleton along the leading coordinate (the rank, for a
regular skeleton). -/
def sdepth : Skel → Nat
  | .leaf => 0
  | .node [] => 1
  | .node (h :: _) => sdepth h + 1

/-- Column `j` of a matrix given as a list of rows. -/
def colOf (rows : List (List Int)) (j : Nat) : List Int :=
  rows.map (fun row => row.getD j 0)

/-- A list of rows forming an `rc × c` matrix. -/
def MShaped (rc c : Nat) (M : List (List α)) : Prop :=
  M.length = rc ∧ ∀ row ∈ M, row.length = c

/-- The 1-D effect of the exclusive zero-padding shift: drop the last
entry, prepend a zero (empty stays empty). -/
def mshift1 (r : List Int) : List Int :=
  match r.getLast? with
  | none => []
  | some _ => 0 :: r.dropLast

/-- Truth value of the python expression `cmp(a, b)` where `a`, `b` come
from a numpy array: on two scalars it is the comparison itself; an
elementwise array comparison used in boolean context succeeds only when
the result has exactly one element, otherwise python raises
`ValueError: The truth value of an array with more than one element is
ambiguous`. -/
def ndCmpTruthy (cmp : Int → Int → Bool) (a b : ND) : Except String Bool :=
  match a, b with
  | .leaf v, .leaf w => .ok (cmp v w)
  | _, _ =>
    match leaves a, leaves b with
    | [v], [w] => .ok (cmp v w)
    | _, _ => .error "ambiguous truth value of array comparison"

/-- Truthiness of `a <= b`. -/
def ndLeTruthy (a b : ND) : Except String Bool :=
  ndCmpTruthy (fun v w => decide (v ≤ w)) a b

/-- Truthiness of `a >= b`. -/
def ndGeTruthy (a b : ND) : Except String Bool :=
  ndCmpTruthy (fun v w => decide (w ≤ v)) a b

/-- `x[i]` on an array: node indexing, `IndexError` when out of range,
`too many indices` on a scalar. -/
def ndIndex (x : ND) (i : Nat) : Except String ND :=
  match x with
  | .leaf _ => .error "too many indices for array"
  | .node l =>
    match l.get? i with
    | some a => .ok a
    | none => .error "IndexError: index out of bounds"

/-- The element list of a node; iterating over a scalar
(`for ... in enumerate(x)` with 0-d `x`) raises `TypeError`. -/
def childrenOf (x : ND) : Except String (List ND) :=
  match x with
  | .leaf _ => .error "TypeError: iteration over a 0-d array"
  | .node l => .ok l

/-- `x[i][j]` for a list of sub-arrays, as `__find_cummax_indices` uses it. -/
def ndIndex2 (x : List ND) (i j : Nat) : Except String ND :=
  match x.get? i with
  | some r => ndIndex r j
  | none => .error "IndexError: index out of bounds"

/-- Association-list model of the python dict `n1`: lookup (`n1[k]`). -/
def alook : List (Nat × Nat) → Nat → Option Nat
  | [], _ => none
  | (k, v) :: rest, j => if j = k then some v else alook rest j

/-- `n1[k]` in reading position: `KeyError` when absent. -/
def alookE (n1 : List (Nat × Nat)) (k : Nat) : Except String Nat :=
  match alook n1 k with
  | some v => .ok v
  | none => .error "KeyError"

/-- Loop body of `__find_indices_values`: walking the remaining elements
`ys` of `ret1` with current best index `n` and current position `idx`.
The python loop is

    for idx, y in enumerate(ret1):
        if ret1[n] <= y or idx == 0:
            n = idx
        indice.append(n)

the comparison `ret1[n] <= y` is evaluated before the `or`, so its
ambiguity error fires even at `idx == 0`. -/
def fivGo (ret1 : List ND) (n : Nat) (idx : Nat) : List ND → Except String (List Nat)
  | [] => .ok []
  | y :: ys => do
    let c ← ndLeTruthy (ret1.getD n (.leaf 0)) y
    let n' := if c || idx == 0 then idx else n
    let rest ← fivGo ret1 n' (idx + 1) ys
    return n' :: rest

/-- `__find_indices_values(ret1, indice=[])` from the source. -/
def findIndicesValues (ret1 : List ND) : Except String (List Nat) :=
  fivGo ret1 0 0 ret1

/-- Inner loop of the `axis != 1` branch of `__find_cummax_indices`:

    for idx1, x1 in enumerate(ret1):
        if index == 0 or x[index][idx1] >= x[n1[idx1]][idx1]:
            n1[idx1] = index
            indice.append(index)
        else:
            indice.append(n1[idx1])

`x` is the whole list of slices, `index` the current outer position,
`idx1` the current inner position; `es` is what remains of `ret1`
(its elements only drive the iteration count). -/
def fcInner (x : List ND) (n1 : List (Nat × Nat)) (index : Nat) (idx1 : Nat) :
    List ND → Except String (List Nat × List (Nat × Nat))
  | [] => .ok ([], n1)
  | _ :: es =>
    if index == 0 then do
      let (ind, n1') ← fcInner x ((idx1, index) :: n1) index (idx1 + 1) es
      return (index :: ind, n1')
    else do
      let a ← ndIndex2 x index idx1
      let m ← alookE n1 idx1
      let b ← ndIndex2 x m idx1
      let c ← ndGeTruthy a b
      if c then do
        let (ind, n1') ← fcInner x ((idx1, index) :: n1) index (idx1 + 1) es
        return (index :: ind, n1')
      else do
        let (ind, n1') ← fcInner x n1 index (idx1 + 1) es
        return (m :: ind, n1')

/-- Outer loop of the `axis != 1` branch of `__find_cummax_indices`
(`for index, ret1 in enumerate(x)` with the dict `n1` threaded through). -/
def fcAxis0 (x : List ND) (n1 : List (Nat × Nat)) (index : Nat) :
    List ND → Except String (List (List Nat))
  | [] => .ok []
  | ret1 :: rest => do
    let cs ← childrenOf ret1
    let (indice, n1') ← fcInner x n1 index 0 cs
    let tail ← fcAxis0 x n1' (index + 1) rest
    return indice :: tail

/-- `axis == 1` branch of `__find_cummax_indices`:
`for ret1 in x: indices.append(__find_indices_values(ret1, indice=[]))`. -/
def fcAxis1 : List ND → Except String (List (List Nat))
  | [] => .ok []
  | r :: rs => do
    let cs ← childrenOf r
    let l ← findIndicesValues cs
    let rest ← fcAxis1 rs
    return l :: rest

/-- Pure specialisation of the `__find_indices_values` loop to a list of
scalars (where every comparison succeeds): same state, same update rule. -/
def pgo (x : List Int) (n : Nat) (idx : Nat) : List Int → List Nat
  | [] => []
  | y :: ys =>
    let n' := if decide (x.getD n 0 ≤ y) || idx == 0 then idx else n
    n' :: pgo x n' (idx + 1) ys

/-- What `__find_indices_values` computes on a 1-D integer array. -/
def pureIdx (x : List Int) : List Nat := pgo x 0 0 x

/-- `__find_cummax_indices(x, axis)` from the source.  The rank dispatch is
`type(x[0]) == np.ndarray` (`x[0]` raises on a 0-d or empty array); the
result list (of lists) is turned into an array by `np.array(indices)`. -/
def findCummaxIndices (x : ND) (axis : Nat) : Except String ND :=
  match x with
  | .leaf _ => .error "too many indices for array"
  | .node [] => .error "IndexError: index 0 is out of bounds"
  | .node (h :: t) =>
    match h with
    | .leaf _ => do
      let l ← findIndicesValues (h :: t)
      return ndOfNat l
    | .node _ =>
      if axis == 1 then do
        let ls ← fcAxis1 (h :: t)
        return ndOfNatMat ls
      else do
        let ls ← fcAxis0 (h :: t) [] 0 (h :: t)
        return ndOfNatMat ls

/-- Elementwise `np.maximum`, the combination `np.maximum.accumulate` scans with. -/
def maxOp : Int → Int → Int := fun a b => max a b

/-- `cummax` from the source: the four (exclusive, reverse) branches, each
pairing `np.maximum.accumulate` values with `__find_cummax_indices`
indices.  In the exclusive branch the zero-padding happens *before* the
index search; in the reverse branches both outputs are flipped back;
in the exclusive-and-reverse branch both outputs receive the
swap/concat-zeros/swap shift after scanning the flipped array. -/
def cummax (x : ND) (axis : Nat) (exclusive reverse : Bool) :
    Except String (ND × ND) :=
  if exclusive || reverse then
    if exclusive && reverse then do
      let indices ← findCummaxIndices (ndFlip axis x) axis
      let v := ndScan maxOp axis (ndFlip axis x)
      let v' := exShift zerosLike axis v
      let indices' := exShift zerosLike axis indices
      return (ndFlip axis v', ndFlip axis indices')
    else if exclusive then do
      let x' := exShift zerosLike axis x
      let indices ← findCummaxIndices x' axis
      return (ndScan maxOp axis x', indices)
    else do
      let x' := ndFlip axis x
      let indices ← findCummaxIndices x' axis
      return (ndFlip axis (ndScan maxOp axis x'), ndFlip axis indices)
  else do
    let indices ← findCummaxIndices x axis
    return (ndScan maxOp axis x, indices)

/-- `cumsum` from the source (value part, dtype handled separately):
dispatch over the four (exclusive, reverse) branches exactly as the code
does; the inclusive-forward primitive is `np.cumsum` along `axis`. -/
def cumsum (x : ND) (axis : Nat) (exclusive reverse : Bool) : ND :=
  if exclusive || reverse then
    if exclusive && reverse then
      ndFlip axis (exShift zerosLike axis (ndScan (· + ·) axis (ndFlip axis x)))
    else if exclusive then
      ndScan (· + ·) axis (exShift zerosLike axis x)
    else
      ndFlip axis (ndScan (· + ·) axis (ndFlip axis x))
  else ndScan (· + ·) axis x

/-- `cumprod` from the source (value part): same branch structure as
`cumsum` with multiplication and a ones fill. -/
def cumprod (x : ND) (axis : Nat) (exclusive reverse : Bool) : ND :=
  if !(exclusive || reverse) then ndScan (· * ·) axis x
  else if exclusive && reverse then
    ndFlip axis (exShift onesLike axis (ndScan (· * ·) axis (ndFlip axis x)))
  else if exclusive then
    ndScan (· * ·) axis (exShift onesLike axis x)
  else
    ndFlip axis (ndScan (· * ·) axis (ndFlip axis x))

/-- The numpy element types relevant to the cumulative-sum dtype policy. -/
inductive DType where
  | bool
  | int8
  | int16
  | int32
  | int64
  | float16
  | float32
  | float64
  deriving DecidableEq, Repr

/-- Modelled from the spec: `ivy.dtype_bits` (dtype-width policy, an
external collaborator not under `src/`) — the bit width of an element
type; booleans count as 1 bit. -/
def dtypeBits : DType → Nat
  | .bool => 1
  | .int8 => 8
  | .int16 => 16
  | .int32 => 32
  | .int64 => 64
  | .float16 => 16
  | .float32 => 32
  | .float64 => 64

/-- Modelled from the spec: `ivy.infer_default_dtype` (default-dtype
inference, an external collaborator not under `src/`) — §3: "booleans and
narrower-than-default types are promoted to the runtime's default-width
integer or floating type for that kind"; the ivy runtime defaults are
`int32` and `float32`, and booleans promote to the default integer type. -/
def inferDefaultDtype : DType → DType
  | .bool => .int32
  | .int8 => .int32
  | .int16 => .int32
  | .int32 => .int32
  | .int64 => .int32
  | .float16 => .float32
  | .float32 => .float32
  | .float64 => .float32

/-- `_infer_dtype` from the source: keep the input dtype unless it is
narrower than the default dtype of its kind. -/
def _infer_dtype (dtype : DType) : DType :=
  let default_dtype := inferDefaultDtype dtype
  if dtypeBits dtype < dtypeBits default_dtype then default_dtype
  else dtype

/-- The output dtype `cumsum` uses when the caller passes `dtype=None`.
In the source the `x.dtype == "bool"` branch and the `is_int_dtype`
branch each assign `dtype`, but the *unconditional* final statement
`dtype = _infer_dtype(x.dtype)` overwrites whatever they stored, so the
effective policy is exactly `_infer_dtype` applied to the input dtype. -/
def cumsumDtype (xd : DType) : DType :=
  _infer_dtype xd

/-- A rank-2 dense array of rationals (standing for the float arrays the
variance policy is exercised on), with an explicit shape so that
zero-length dimensions are representable. -/
structure Mat where
  r : Nat
  c : Nat
  entry : Nat → Nat → ℚ

def rowList (m : Mat) (i : Nat) : List ℚ :=
  (List.range m.c).map (m.entry i)

def colList (m : Mat) (j : Nat) : List ℚ :=
  (List.range m.r).map (fun i => m.entry i j)

def allEntries (m : Mat) : List ℚ :=
  ((List.range m.r).map (rowList m)).flatten

/-- Population variance of a list (what `np.var` with `ddof=0` computes). -/
def popVarQ (l : List ℚ) : ℚ :=
  ((l.map (fun v => (v - l.sum / l.length) ^ 2)).sum) / l.length

/-- `np.var(x, axis=axes, ddof=0, keepdims=False)` for the rank-2 case,
with `axes` the already-normalised axis tuple. -/
def npVar (m : Mat) (axes : List Nat) : List ℚ :=
  if 0 ∈ axes ∧ 1 ∈ axes then [popVarQ (allEntries m)]
  else if 1 ∈ axes then (List.range m.r).map (fun i => popVarQ (rowList m i))
  else if 0 ∈ axes then (List.range m.c).map (fun j => popVarQ (colList m j))
  else []

/-- Result of the fractional-correction path of `var`: either the scalar
NaN the source returns for empty input, or an array of values. -/
inductive VarOut where
  | nan : VarOut
  | vals : List ℚ → VarOut
  deriving DecidableEq, Repr

/-- `size = 1; for a in axis: size *= x.shape[a]` from the source. -/
def reducedSize (m : Mat) (axes : List Nat) : Nat :=
  axes.foldl (fun s a => s * ([m.r, m.c].getD a 1)) 1

/-- The fractional-correction path of `var` from the source (reached when
`correction` is not an integer): normalise `axis=None` to all axes,
return scalar NaN when `x.size == 0` (the *total* element count), and
otherwise rescale the population variance by
`stable_divide(size, size - correction)` where `size` is the product of
the reduced-axis lengths.  `ivy.stable_divide` is an external
collaborator not under `src/`; modelled from the spec ("rescales by
`size / (size − correction)`") as exact division. -/
def varFractional (m : Mat) (axis : Option (List Nat)) (correction : ℚ) : VarOut :=
  let axes := match axis with
    | none => [0, 1]
    | some l => l
  if m.r * m.c = 0 then .nan
  else
    .vals ((npVar m axes).map
      (fun v => v * ((reducedSize m axes : ℚ) / ((reducedSize m axes : ℚ) - correction))))

/-! ## Basic lemmas about the 1-D machinery -/

theorem ebind_ok (a : α) (f : α → Except String β) :
    (Except.ok a >>= f : Except String β) = f a := rfl

theorem getD_map_leaf (x : List Int) (n : Nat) (d : Int) :
    (x.map ND.leaf).getD n (.leaf d) = .leaf (x.getD n d) := by
  simp only [List.getD, List.get?_eq_getElem?, List.getElem?_map]
  cases x[n]? <;> rfl

theorem ndLeTruthy_leaf (a b : Int) :
    ndLeTruthy (.leaf a) (.leaf b) = .ok (decide (a ≤ b)) := rfl

theorem fivGo_map_leaf (x : List Int) :
    ∀ (ys : List Int) (n idx : Nat),
      fivGo (x.map .leaf) n idx (ys.map .leaf) = .ok (pgo x n idx ys)
  | [], _, _ => rfl
  | y :: ys, n, idx => by
    simp only [List.map_cons, fivGo, pgo, getD_map_leaf, ndLeTruthy_leaf,
      ebind_ok]
    rw [fivGo_map_leaf x ys _ (idx + 1), ebind_ok]
    rfl

theorem findIndicesValues_map_leaf (x : List Int) :
    findIndicesValues (x.map .leaf) = .ok (pureIdx x) :=
  fivGo_map_leaf x x 0 0

theorem scan1Go_map_comm (F : α → β) (f : α → α → α) (g : β → β → β)
    (h : ∀ a b, g (F a) (F b) = F (f a b)) :
    ∀ (acc : α) (l : List α),
      scan1Go g (F acc) (l.map F) = (scan1Go f acc l).map F
  | _, [] => rfl
  | acc, b :: bs => by
    simp only [List.map_cons, scan1Go, h]
    rw [scan1Go_map_comm F f g h (f acc b) bs]

theorem scan1_map_comm (F : α → β) (f : α → α → α) (g : β → β → β)
    (h : ∀ a b, g (F a) (F b) = F (f a b)) (l : List α) :
    scan1 g (l.map F) = (scan1 f l).map F := by
  cases l with
  | nil => rfl
  | cons a as =>
    simp only [List.map_cons, scan1]
    rw [scan1Go_map_comm F f g h a as]

theorem ndZip_leaf (f : Int → Int → Int) (a b : Int) :
    ndZip f (.leaf a) (.leaf b) = .leaf (f a b) := rfl

theorem ndScan_ofList (f : Int → Int → Int) (x : List Int) :
    ndScan f 0 (ndOfList x) = ndOfList (scan1 f x) := by
  simp only [ndOfList, ndScan]
  rw [scan1_map_comm ND.leaf f (ndZip f) (fun a b => rfl) x]

theorem findCummaxIndices_ofList (x : List Int) (hx : x ≠ []) (axis : Nat) :
    findCummaxIndices (ndOfList x) axis = .ok (ndOfNat (pureIdx x)) := by
  obtain ⟨h, t, rfl⟩ : ∃ h t, x = h :: t := by
    cases x with
    | nil => exact absurd rfl hx
    | cons h t => exact ⟨h, t, rfl⟩
  show findCummaxIndices (.node (ND.leaf h :: t.map .leaf)) axis = _
  simp only [findCummaxIndices]
  have : findIndicesValues (ND.leaf h :: t.map .leaf) = .ok (pureIdx (h :: t)) := by
    simpa using findIndicesValues_map_leaf (h :: t)
  rw [this]
  rfl

theorem cummax_1d (x : List Int) (hx : x ≠ []) :
    cummax (ndOfList x) 0 false false =
      .ok (ndOfList (scan1 maxOp x), ndOfNat (pureIdx x)) := by
  simp only [cummax, Bool.or_false, Bool.false_and, if_false, ite_false]
  rw [findCummaxIndices_ofList x hx 0]
  simp only [ebind_ok, ndScan_ofList]
  rfl

/-- Joint invariant of the index loop and the value scan on a 1-D array:
starting at position `idx ≥ 1` with running best index `n < idx` and
running best value `acc = x[n]`, every later position obeys the
running-maximum step rules, the index always points at an element whose
value is the running maximum, and indices never exceed their position. -/
theorem pv_inv (x : List Int) :
    ∀ (ys : List Int) (idx n : Nat) (acc : Int),
      1 ≤ idx → n < idx → idx + ys.length = x.length →
      (∀ j, j < ys.length → ys.getD j 0 = x.getD (idx + j) 0) →
      acc = x.getD n 0 →
      (pgo x n idx ys).length = ys.length ∧
      (scan1Go maxOp acc ys).length = ys.length ∧
      (∀ j, j < ys.length →
        (acc :: scan1Go maxOp acc ys).getD (j + 1) 0 =
          maxOp ((acc :: scan1Go maxOp acc ys).getD j 0) (x.getD (idx + j) 0) ∧
        (n :: pgo x n idx ys).getD (j + 1) 0 =
          (if (acc :: scan1Go maxOp acc ys).getD j 0 ≤ x.getD (idx + j) 0
            then idx + j else (n :: pgo x n idx ys).getD j 0) ∧
        (acc :: scan1Go maxOp acc ys).getD (j + 1) 0 =
          x.getD ((n :: pgo x n idx ys).getD (j + 1) 0) 0 ∧
        (n :: pgo x n idx ys).getD (j + 1) 0 ≤ idx + j) := by
  intro ys
  induction ys with
  | nil =>
    intro idx n acc _ _ _ _ _
    exact ⟨rfl, rfl, fun j hj => absurd hj (by simp)⟩
  | cons y ys ih =>
    intro idx n acc hidx hn hlen hsuf hacc
    have hy : y = x.getD idx 0 := by
      have := hsuf 0 (by simp)
      simpa using this
    have hidx0 : (idx == 0) = false := by
      simp only [beq_eq_false_iff_ne, ne_eq]
      omega
    have hpgo : pgo x n idx (y :: ys) =
        (if x.getD n 0 ≤ y then idx else n) ::
          pgo x (if x.getD n 0 ≤ y then idx else n) (idx + 1) ys := by
      simp [pgo, hidx0]
    have hscan : scan1Go maxOp acc (y :: ys) =
        maxOp acc y :: scan1Go maxOp (maxOp acc y) ys := rfl
    set n' := if x.getD n 0 ≤ y then idx else n with hnprime
    have hlink : maxOp acc y = x.getD n' 0 := by
      show max acc y = x.getD n' 0
      rw [hnprime]
      by_cases hle : x.getD n 0 ≤ y
      · have h1 : acc ≤ y := by rw [hacc]; exact hle
        rw [if_pos hle, max_eq_right h1]
        exact hy
      · have h1 : y ≤ acc := by rw [hacc]; exact le_of_not_le hle
        rw [if_neg hle, max_eq_left h1]
        exact hacc
    have hn'lt : n' < idx + 1 := by
      rw [hnprime]
      by_cases hle : x.getD n 0 ≤ y
      · rw [if_pos hle]; omega
      · rw [if_neg hle]; omega
    have hlen' : idx + 1 + ys.length = x.length := by
      simp only [List.length_cons] at hlen
      omega
    have hsuf' : ∀ j, j < ys.length → ys.getD j 0 = x.getD (idx + 1 + j) 0 := by
      intro j hj
      have h1 := hsuf (j + 1) (by simpa using Nat.succ_lt_succ hj)
      have h2 : idx + (j + 1) = idx + 1 + j := by omega
      simpa [h2] using h1
    obtain ⟨ihl1, ihl2, ihfacts⟩ :=
      ih (idx + 1) n' (maxOp acc y) (by omega) hn'lt hlen' hsuf' hlink
    refine ⟨?_, ?_, ?_⟩
    · rw [hpgo]
      simpa using ihl1
    · rw [hscan]
      simpa using ihl2
    · intro j hj
      rw [hpgo, hscan]
      cases j with
      | zero =>
        simp only [List.getD_cons_succ, List.getD_cons_zero, Nat.add_zero]
        refine ⟨?_, ?_, ?_, ?_⟩
        · rw [← hy]
        · rw [hnprime]
          by_cases hle : x.getD n 0 ≤ y
          · rw [if_pos hle,
              if_pos (show acc ≤ x.getD idx 0 by rw [hacc, ← hy]; exact hle)]
          · rw [if_neg hle,
              if_neg (show ¬acc ≤ x.getD idx 0 by rw [hacc, ← hy]; exact hle)]
        · exact hlink
        · exact Nat.le_of_lt_succ hn'lt
      | succ k =>
        have hk : k < ys.length := by
          simpa using Nat.lt_of_succ_lt_succ hj
        obtain ⟨f1, f2, f3, f4⟩ := ihfacts k hk
        have harith : idx + (k + 1) = idx + 1 + k := by omega
        refine ⟨?_, ?_, ?_, ?_⟩
        · simpa [harith] using f1
        · simpa [harith] using f2
        · simpa using f3
        · simpa [harith] using f4

/-- Full characterisation of the 1-D running-maximum-with-index walk:
lengths, first position, pointer validity/achievement, and the step rules
at every later position. -/
theorem cummax1_facts (x : List Int) (hx : x ≠ []) :
    (scan1 maxOp x).length = x.length ∧
    (pureIdx x).length = x.length ∧
    (scan1 maxOp x).getD 0 0 = x.getD 0 0 ∧
    (pureIdx x).getD 0 0 = 0 ∧
    (∀ i, i < x.length →
      (pureIdx x).getD i 0 ≤ i ∧
      (scan1 maxOp x).getD i 0 = x.getD ((pureIdx x).getD i 0) 0) ∧
    (∀ i, 1 ≤ i → i < x.length →
      (scan1 maxOp x).getD i 0 =
        maxOp ((scan1 maxOp x).getD (i - 1) 0) (x.getD i 0) ∧
      (pureIdx x).getD i 0 =
        (if (scan1 maxOp x).getD (i - 1) 0 ≤ x.getD i 0
          then i else (pureIdx x).getD (i - 1) 0)) := by
  obtain ⟨h, t, rfl⟩ : ∃ h t, x = h :: t := by
    cases x with
    | nil => exact absurd rfl hx
    | cons h t => exact ⟨h, t, rfl⟩
  have hscan : scan1 maxOp (h :: t) = h :: scan1Go maxOp h t := rfl
  have hpure : pureIdx (h :: t) = 0 :: pgo (h :: t) 0 1 t := by
    simp [pureIdx, pgo]
  obtain ⟨l1, l2, facts⟩ :=
    pv_inv (h :: t) t 1 0 h (le_refl 1) Nat.zero_lt_one
      (by simp [Nat.add_comm])
      (by intro j hj; rw [Nat.add_comm]; simp)
      rfl
  refine ⟨?_, ?_, ?_, ?_, ?_, ?_⟩
  · simp [hscan, l2]
  · simp [hpure, l1]
  · simp [hscan]
  · simp [hpure]
  · intro i hi
    cases i with
    | zero => exact ⟨by simp [hpure], by simp [hscan, hpure]⟩
    | succ k =>
      have hk : k < t.length := by simpa using Nat.lt_of_succ_lt_succ hi
      obtain ⟨f1, f2, f3, f4⟩ := facts k hk
      constructor
      · rw [hpure]
        rw [Nat.add_comm 1 k] at f4
        exact f4
      · rw [hscan, hpure]
        exact f3
  · intro i h1 hi
    obtain ⟨k, rfl⟩ : ∃ k, i = k + 1 := by
      cases i with
      | zero => exact absurd h1 (by omega)
      | succ k => exact ⟨k, rfl⟩
    have hk : k < t.length := by simpa using Nat.lt_of_succ_lt_succ hi
    obtain ⟨f1, f2, f3, f4⟩ := facts k hk
    rw [Nat.add_comm 1 k] at f1 f2
    constructor
    · rw [hscan]
      simpa using f1
    · rw [hscan, hpure]
      simpa using f2

theorem scan1Go_length (f : α → α → α) :
    ∀ (acc : α) (l : List α), (scan1Go f acc l).length = l.length
  | _, [] => rfl
  | acc, b :: bs => by
    simp [scan1Go, scan1Go_length f (f acc b) bs]

theorem scan1_length (f : α → α → α) (l : List α) :
    (scan1 f l).length = l.length := by
  cases l with
  | nil => rfl
  | cons h t => simp [scan1, scan1Go_length]

theorem scan1Go_append (f : α → α → α) :
    ∀ (acc : α) (l m : List α),
      scan1Go f acc (l ++ m) = scan1Go f acc l ++ scan1Go f (l.foldl f acc) m
  | _, [], _ => rfl
  | acc, b :: bs, m => by
    simp [scan1Go, scan1Go_append f (f acc b) bs m, List.foldl_cons]

/-- The inclusive scan of a list extends the inclusive scan of its
`dropLast`: positions before the last agree. -/
theorem scan1_getD_dropLast (f : α → α → α) (d : α) (x : List α) :
    ∀ j, j < x.dropLast.length →
      (scan1 f x.dropLast).getD j d = (scan1 f x).getD j d := by
  rcases x.eq_nil_or_concat with rfl | ⟨ys, y, rfl⟩
  · intro j hj
    simp at hj
  · simp only [List.concat_eq_append]
    rw [List.dropLast_concat]
    cases ys with
    | nil =>
      intro j hj
      simp at hj
    | cons d0 dt =>
      intro j hj
      simp only [scan1, List.cons_append, scan1Go_append]
      cases j with
      | zero => rfl
      | succ k =>
        have hk : k < (scan1Go f d0 dt).length := by
          rw [scan1Go_length]
          simpa using Nat.lt_of_succ_lt_succ hj
        simp only [List.getD_cons_succ]
        rw [List.getD_append _ _ _ _ hk]

/-- Prepending the additive identity shifts the inclusive sum scan. -/
theorem scan1_zero_cons_add (l : List Int) :
    scan1 (· + ·) (0 :: l) = 0 :: scan1 (· + ·) l := by
  cases l with
  | nil => rfl
  | cons b bs => simp [scan1, scan1Go]

/-- The value-side shift of the exclusive variants on a 1-D array:
drop the last element and prepend a zero. -/
theorem exShift_zeros_ofList (x : List Int) (hx : x ≠ []) :
    exShift zerosLike 0 (ndOfList x) = ndOfList (0 :: x.dropLast) := by
  simp only [ndOfList, exShift]
  rw [List.getLast?_map]
  cases hl : x.getLast? with
  | none =>
    simp [List.getLast?_eq_none_iff] at hl
    exact absurd hl hx
  | some a => simp [zerosLike, List.map_dropLast]

theorem cumsum_1d (x : List Int) :
    cumsum (ndOfList x) 0 false false = ndOfList (scan1 (· + ·) x) := by
  simp only [cumsum, Bool.or_false, Bool.false_and, ite_false]
  exact ndScan_ofList _ x

theorem cumsum_1d_exclusive (x : List Int) (hx : x ≠ []) :
    cumsum (ndOfList x) 0 true false =
      ndOfList (scan1 (· + ·) (0 :: x.dropLast)) := by
  simp only [cumsum, Bool.or_true, Bool.true_or, Bool.and_false, Bool.true_and,
    Bool.and_self, ite_true, ite_false, Bool.false_and]
  rw [exShift_zeros_ofList x hx]
  exact ndScan_ofList _ _

theorem cummax_1d_exclusive (x : List Int) (hx : x ≠ []) :
    cummax (ndOfList x) 0 true false =
      .ok (ndOfList (scan1 maxOp (0 :: x.dropLast)),
           ndOfNat (pureIdx (0 :: x.dropLast))) := by
  simp only [cummax, Bool.or_true, Bool.true_or, Bool.and_false, Bool.true_and,
    Bool.and_self, ite_true, ite_false, Bool.false_and]
  rw [exShift_zeros_ofList x hx,
    findCummaxIndices_ofList (0 :: x.dropLast) (by simp) 0]
  simp only [ebind_ok, ndScan_ofList]
  rfl

/-! ## Claim theorems (1-D cumulative operations) -/

/-- C1: for the inclusive forward cumulative-max-with-index scan, ties are
broken last-wins: at each position `i > 0`, if the element at `i` is ≥ the
running best (the value output at `i - 1`), both the value and the index
output at `i` update to position `i`; concretely
`cummax([3,5,5,2])` returns values `[3,5,5,5]` and indices `[0,1,2,2]`. -/
theorem claim_C1_cummax_tie_last_wins (x : List Int) (i : Nat)
    (h1 : 1 ≤ i) (hi : i < x.length) :
    cummax (ndOfList [3, 5, 5, 2]) 0 false false =
      .ok (ndOfList [3, 5, 5, 5], ndOfNat [0, 1, 2, 2]) ∧
    ∃ v : List Int, ∃ ind : List Nat,
      cummax (ndOfList x) 0 false false = .ok (ndOfList v, ndOfNat ind) ∧
      (v.getD (i - 1) 0 ≤ x.getD i 0 →
        ind.getD i 0 = i ∧ v.getD i 0 = x.getD i 0) := by
  have hx : x ≠ [] := by
    intro h
    subst h
    simp at hi
  refine ⟨rfl, scan1 maxOp x, pureIdx x, cummax_1d x hx, ?_⟩
  intro hge
  obtain ⟨-, -, -, -, -, hstep⟩ := cummax1_facts x hx
  obtain ⟨f1, f2⟩ := hstep i h1 hi
  constructor
  · rw [f2, if_pos hge]
  · rw [f1]
    exact max_eq_right hge

/-- Witness for C1 at `x = [3,5,5,2]`, `i = 2` (the tie position). -/
theorem claim_C1_witness :
    cummax (ndOfList [3, 5, 5, 2]) 0 false false =
      .ok (ndOfList [3, 5, 5, 5], ndOfNat [0, 1, 2, 2]) ∧
    ∃ v : List Int, ∃ ind : List Nat,
      cummax (ndOfList [3, 5, 5, 2]) 0 false false = .ok (ndOfList v, ndOfNat ind) ∧
      (v.getD 1 0 ≤ ([3, 5, 5, 2] : List Int).getD 2 0 →
        ind.getD 2 0 = 2 ∧ v.getD 2 0 = ([3, 5, 5, 2] : List Int).getD 2 0) :=
  claim_C1_cummax_tie_last_wins [3, 5, 5, 2] 2 (by decide) (by decide)

/-- C3: for every 1-D array `x` of length ≥ 2 scanned forward, the
exclusive cumulative sum at position `i ≥ 1` equals the inclusive
cumulative sum at position `i - 1`, and the exclusive cumulative sum at
position 0 is 0. -/
theorem claim_C3_cumsum_exclusive_shift (x : List Int) (hlen : 2 ≤ x.length) :
    ∃ e v : List Int,
      cumsum (ndOfList x) 0 true false = ndOfList e ∧
      cumsum (ndOfList x) 0 false false = ndOfList v ∧
      e.getD 0 0 = 0 ∧
      ∀ i, 1 ≤ i → i < x.length → e.getD i 0 = v.getD (i - 1) 0 := by
  have hx : x ≠ [] := by
    intro h
    subst h
    simp at hlen
  refine ⟨scan1 (· + ·) (0 :: x.dropLast), scan1 (· + ·) x,
    cumsum_1d_exclusive x hx, cumsum_1d x, ?_, ?_⟩
  · rw [scan1_zero_cons_add]
    rfl
  · intro i h1 hi
    obtain ⟨k, rfl⟩ : ∃ k, i = k + 1 := by
      cases i with
      | zero => exact absurd h1 (by omega)
      | succ k => exact ⟨k, rfl⟩
    rw [scan1_zero_cons_add]
    simp only [List.getD_cons_succ, Nat.add_sub_cancel]
    exact scan1_getD_dropLast (· + ·) 0 x k
      (by rw [List.length_dropLast]; omega)

/-- Witness for C3 at `x = [1,2,3]`, checked at `i = 1` and `i = 2` by the
universally quantified conclusion. -/
theorem claim_C3_witness :
    ∃ e v : List Int,
      cumsum (ndOfList [1, 2, 3]) 0 true false = ndOfList e ∧
      cumsum (ndOfList [1, 2, 3]) 0 false false = ndOfList v ∧
      e.getD 0 0 = 0 ∧
      ∀ i, 1 ≤ i → i < ([1, 2, 3] : List Int).length →
        e.getD i 0 = v.getD (i - 1) 0 :=
  claim_C3_cumsum_exclusive_shift [1, 2, 3] (by decide)

/-- C4: for the exclusive forward cumulative-max-with-index scan, the value
output at position 0 is the zero fill the implementation prepends (0), not
the first input element; concretely `cummax([4,1,9], exclusive=True)` has
value 0 (not 4) at position 0. -/
theorem claim_C4_cummax_exclusive_boundary (x : List Int) (hx : x ≠ []) :
    cummax (ndOfList [4, 1, 9]) 0 true false =
      .ok (ndOfList [0, 4, 4], ndOfNat [0, 1, 1]) ∧
    ∃ v : List Int, ∃ ind : List Nat,
      cummax (ndOfList x) 0 true false = .ok (ndOfList v, ndOfNat ind) ∧
      v.getD 0 0 = 0 := by
  refine ⟨rfl, scan1 maxOp (0 :: x.dropLast), pureIdx (0 :: x.dropLast),
    cummax_1d_exclusive x hx, rfl⟩

/-- Witness for C4 at `x = [-7, 3]` (first element nonzero and negative:
the boundary is still the zero fill). -/
theorem claim_C4_witness :
    cummax (ndOfList [4, 1, 9]) 0 true false =
      .ok (ndOfList [0, 4, 4], ndOfNat [0, 1, 1]) ∧
    ∃ v : List Int, ∃ ind : List Nat,
      cummax (ndOfList [-7, 3]) 0 true false = .ok (ndOfList v, ndOfNat ind) ∧
      v.getD 0 0 = 0 :=
  claim_C4_cummax_exclusive_boundary [-7, 3] (by decide)

/-- C8: for the inclusive forward cumulative-max-with-index scan on a 1-D
array, the value output is non-decreasing, and at every position the value
output equals the input element at the returned index (which is a valid
position). -/
theorem claim_C8_cummax_monotone_achieves (x : List Int) (hx : x ≠ []) :
    ∃ v : List Int, ∃ ind : List Nat,
      cummax (ndOfList x) 0 false false = .ok (ndOfList v, ndOfNat ind) ∧
      v.length = x.length ∧ ind.length = x.length ∧
      (∀ i, 1 ≤ i → i < x.length → v.getD (i - 1) 0 ≤ v.getD i 0) ∧
      (∀ i, i < x.length →
        ind.getD i 0 < x.length ∧ v.getD i 0 = x.getD (ind.getD i 0) 0) := by
  obtain ⟨l1, l2, -, -, hptr, hstep⟩ := cummax1_facts x hx
  refine ⟨scan1 maxOp x, pureIdx x, cummax_1d x hx, l1, l2, ?_, ?_⟩
  · intro i h1 hi
    obtain ⟨f1, -⟩ := hstep i h1 hi
    rw [f1]
    exact le_max_left _ _
  · intro i hi
    obtain ⟨hb, hl⟩ := hptr i hi
    exact ⟨Nat.lt_of_le_of_lt hb hi, hl⟩

/-- Witness for C8 at `x = [2, 1, 3, 3]`. -/
theorem claim_C8_witness :
    ∃ v : List Int, ∃ ind : List Nat,
      cummax (ndOfList [2, 1, 3, 3]) 0 false false =
        .ok (ndOfList v, ndOfNat ind) ∧
      v.length = ([2, 1, 3, 3] : List Int).length ∧
      ind.length = ([2, 1, 3, 3] : List Int).length ∧
      (∀ i, 1 ≤ i → i < ([2, 1, 3, 3] : List Int).length →
        v.getD (i - 1) 0 ≤ v.getD i 0) ∧
      (∀ i, i < ([2, 1, 3, 3] : List Int).length →
        ind.getD i 0 < ([2, 1, 3, 3] : List Int).length ∧
        v.getD i 0 = ([2, 1, 3, 3] : List Int).getD (ind.getD i 0) 0) :=
  claim_C8_cummax_monotone_achieves [2, 1, 3, 3] (by decide)

/-- C9: for every array and axis, the reverse inclusive cumulative sum is
the flip (along that axis) of the forward inclusive cumulative sum of the
flipped array — exactly how the source's reverse branch is built. -/
theorem claim_C9_cumsum_reverse_symmetry (x : ND) (axis : Nat) :
    cumsum x axis false true =
      ndFlip axis (cumsum (ndFlip axis x) axis false false) := rfl

/-- C10: with `reverse=True` (inclusive), the index array `cummax` returns
is the elementwise flip of the indices computed on the reversed array —
coordinates live in the reversed traversal frame and are not remapped —
and indexing the original array with them does not in general recover the
value output (witnessed at `x = [1,2]`, position 0: value 2, index 0, but
`x[0] = 1`). -/
theorem claim_C10_cummax_reverse_indices (x : ND) (axis : Nat) (v ind : ND)
    (h : cummax x axis false true = .ok (v, ind)) :
    (∃ ind0, findCummaxIndices (ndFlip axis x) axis = .ok ind0 ∧
      ind = ndFlip axis ind0) ∧
    (cummax (ndOfList [1, 2]) 0 false true =
        .ok (ndOfList [2, 2], ndOfNat [0, 0]) ∧
      ([2, 2] : List Int).getD 0 0 ≠ ([1, 2] : List Int).getD 0 0) := by
  refine ⟨?_, rfl, by decide⟩
  simp only [cumsum, cummax, Bool.false_or, Bool.or_true, Bool.false_and,
    Bool.and_true, ite_true, ite_false] at h
  cases hfind : findCummaxIndices (ndFlip axis x) axis with
  | error e =>
    rw [hfind] at h
    exact absurd h (by simp [Except.bind])
  | ok ind0 =>
    rw [hfind, ebind_ok] at h
    cases h
    exact ⟨ind0, rfl, rfl⟩

/-- Witness for C10 at the concrete reverse example `x = [1,2]`. -/
theorem claim_C10_witness :
    (∃ ind0, findCummaxIndices (ndFlip 0 (ndOfList [1, 2])) 0 = .ok ind0 ∧
      ndOfNat [0, 0] = ndFlip 0 ind0) ∧
    (cummax (ndOfList [1, 2]) 0 false true =
        .ok (ndOfList [2, 2], ndOfNat [0, 0]) ∧
      ([2, 2] : List Int).getD 0 0 ≠ ([1, 2] : List Int).getD 0 0) :=
  claim_C10_cummax_reverse_indices (ndOfList [1, 2]) 0
    (ndOfList [2, 2]) (ndOfNat [0, 0]) rfl

/-! ## Rank-2 machinery for `__find_cummax_indices` -/

theorem pgo_length (x : List Int) :
    ∀ (ys : List Int) (n idx : Nat), (pgo x n idx ys).length = ys.length
  | [], _, _ => rfl
  | y :: ys, n, idx => by
    simp [pgo, pgo_length x ys]

theorem pureIdx_length (x : List Int) : (pureIdx x).length = x.length :=
  pgo_length x x 0 0

theorem getD_map (f : α → β) (l : List α) (i : Nat) (d : α) :
    (l.map f).getD i (f d) = f (l.getD i d) := by
  simp only [List.getD, List.get?_eq_getElem?, List.getElem?_map]
  cases l[i]? <;> rfl

theorem colOf_getD (rows : List (List Int)) (i j : Nat) :
    (colOf rows j).getD i 0 = (rows.getD i []).getD j 0 := by
  have := getD_map (fun row => row.getD j 0) rows i []
  simpa [colOf] using this

theorem colOf_length (rows : List (List Int)) (j : Nat) :
    (colOf rows j).length = rows.length := by
  simp [colOf]

theorem ndGeTruthy_leaf (a b : Int) :
    ndGeTruthy (.leaf a) (.leaf b) = .ok (decide (b ≤ a)) := rfl

theorem get?_of_getD (l : List α) (i : Nat) (d : α) (h : i < l.length) :
    l.get? i = some (l.getD i d) := by
  simp [List.getD, List.get?_eq_getElem?, List.getElem?_eq_getElem h]

theorem ndIndex2_mat (rows : List (List Int)) (i j : Nat)
    (hi : i < rows.length) (hj : j < (rows.getD i []).length) :
    ndIndex2 (rows.map ndOfList) i j = .ok (.leaf ((rows.getD i []).getD j 0)) := by
  have h1 := get?_of_getD rows i [] hi
  have h2 := get?_of_getD (rows.getD i []) j 0 hj
  simp only [ndIndex2, List.get?_map, h1, Option.map_some']
  simp only [ndOfList, ndIndex, List.get?_map, h2, Option.map_some']

/-- First outer iteration (`index == 0`) of the dict walk: every column
pointer is initialised to 0 and the emitted row is all zeros. -/
theorem fcInner_index0 (x : List ND) :
    ∀ (es : List ND) (idx1 : Nat) (n1 : List (Nat × Nat)),
      ∃ n1', fcInner x n1 0 idx1 es = .ok (List.replicate es.length 0, n1') ∧
        ∀ j, alook n1' j =
          if idx1 ≤ j ∧ j < idx1 + es.length then some 0 else alook n1 j := by
  intro es
  induction es with
  | nil =>
    intro idx1 n1
    refine ⟨n1, rfl, ?_⟩
    intro j
    rw [if_neg (by simp only [List.length_nil, Nat.add_zero]; omega)]
  | cons e es ih =>
    intro idx1 n1
    obtain ⟨n1', heq, hlook⟩ := ih (idx1 + 1) ((idx1, 0) :: n1)
    refine ⟨n1', ?_, ?_⟩
    · simp only [fcInner, beq_self_eq_true, ite_true, heq, ebind_ok,
        List.length_cons, List.replicate_succ]
      rfl
    · intro j
      rw [hlook j]
      by_cases hin : idx1 + 1 ≤ j ∧ j < idx1 + 1 + es.length
      · rw [if_pos hin, if_pos (by simp only [List.length_cons]; omega)]
      · rw [if_neg hin]
        show (if j = idx1 then some 0 else alook n1 j) = _
        by_cases hj : j = idx1
        · rw [if_pos hj, if_pos (by simp only [List.length_cons]; omega)]
        · rw [if_neg hj, if_neg (by simp only [List.length_cons]; omega)]

/-- Inner loop of the dict walk at a row `index ≥ 1` over a regular matrix
of scalars: per remaining column the emitted index and the stored pointer
follow the running-maximum step rule against the stored pointer `p`. -/
theorem fcInner_step (rows : List (List Int)) (c : Nat)
    (hc : ∀ r ∈ rows, r.length = c) (index : Nat)
    (hindex : 1 ≤ index) (hirows : index < rows.length) :
    ∀ (es : List ND) (idx1 : Nat) (n1 : List (Nat × Nat)) (p : Nat → Nat),
      idx1 + es.length = c →
      (∀ j, idx1 ≤ j → j < c → alook n1 j = some (p j)) →
      (∀ j, idx1 ≤ j → j < c → p j < index) →
      ∃ out n1',
        fcInner (rows.map ndOfList) n1 index idx1 es = .ok (out, n1') ∧
        out.length = es.length ∧
        (∀ k, k < es.length →
          out.getD k 0 = (if (colOf rows (idx1 + k)).getD (p (idx1 + k)) 0 ≤
              (colOf rows (idx1 + k)).getD index 0 then index else p (idx1 + k))) ∧
        (∀ j, alook n1' j =
          if idx1 ≤ j ∧ j < c then
            some (if (colOf rows j).getD (p j) 0 ≤ (colOf rows j).getD index 0
              then index else p j)
          else alook n1 j) := by
  have hrlen : ∀ i, i < rows.length → (rows.getD i []).length = c := by
    intro i hi
    have hmem : rows.getD i [] ∈ rows := List.get?_mem (get?_of_getD rows i [] hi)
    exact hc _ hmem
  intro es
  induction es with
  | nil =>
    intro idx1 n1 p hlen hl hp
    refine ⟨[], n1, rfl, rfl, ?_, ?_⟩
    · intro k hk
      simp at hk
    · intro j
      rw [if_neg (by simp only [List.length_nil, Nat.add_zero] at hlen; omega)]
  | cons e es ih =>
    intro idx1 n1 p hlen hl hp
    have hidx1c : idx1 < c := by
      simp only [List.length_cons] at hlen
      omega
    have hlen' : idx1 + 1 + es.length = c := by
      simp only [List.length_cons] at hlen
      omega
    have hne0 : (index == 0) = false := by
      simp only [beq_eq_false_iff_ne, ne_eq]
      omega
    have hpi : p idx1 < index := hp idx1 (le_refl idx1) hidx1c
    have ha := ndIndex2_mat rows index idx1 hirows
      (by rw [hrlen index hirows]; exact hidx1c)
    have hb := ndIndex2_mat rows (p idx1) idx1 (lt_trans hpi hirows)
      (by rw [hrlen _ (lt_trans hpi hirows)]; exact hidx1c)
    have halookE : alookE n1 idx1 = .ok (p idx1) := by
      simp [alookE, hl idx1 (le_refl idx1) hidx1c]
    have hp' : ∀ j, idx1 + 1 ≤ j → j < c → p j < index :=
      fun j hj1 hj2 => hp j (by omega) hj2
    by_cases hcond :
        (rows.getD (p idx1) []).getD idx1 0 ≤ (rows.getD index []).getD idx1 0
    · have hl' : ∀ j, idx1 + 1 ≤ j → j < c →
          alook ((idx1, index) :: n1) j = some (p j) := by
        intro j hj1 hj2
        show (if j = idx1 then some index else alook n1 j) = some (p j)
        rw [if_neg (by omega), hl j (by omega) hj2]
      obtain ⟨out', n1', heq', hlo, hout', hlook'⟩ :=
        ih (idx1 + 1) ((idx1, index) :: n1) p hlen' hl' hp'
      refine ⟨index :: out', n1', ?_, ?_, ?_, ?_⟩
      · simp only [fcInner, hne0, Bool.false_eq_true, ite_false, ha, ebind_ok,
          halookE, hb, ndGeTruthy_leaf, decide_eq_true_eq]
        rw [if_pos hcond, heq', ebind_ok]
        rfl
      · simp [hlo]
      · intro k hk
        cases k with
        | zero =>
          simp only [List.getD_cons_zero, Nat.add_zero]
          rw [if_pos (by simp only [colOf_getD]; exact hcond)]
        | succ k2 =>
          have hk2 : k2 < es.length := by
            simpa using Nat.lt_of_succ_lt_succ hk
          have harith : idx1 + (k2 + 1) = idx1 + 1 + k2 := by omega
          simp only [List.getD_cons_succ, harith]
          exact hout' k2 hk2
      · intro j
        rw [hlook' j]
        by_cases hj1 : idx1 + 1 ≤ j ∧ j < c
        · rw [if_pos hj1, if_pos (show idx1 ≤ j ∧ j < c from ⟨by omega, hj1.2⟩)]
        · rw [if_neg hj1]
          show (if j = idx1 then some index else alook n1 j) = _
          by_cases hj2 : j = idx1
          · rw [if_pos hj2, if_pos (show idx1 ≤ j ∧ j < c by omega),
              if_pos (show (colOf rows j).getD (p j) 0 ≤
                (colOf rows j).getD index 0 by
                  rw [hj2]; simp only [colOf_getD]; exact hcond)]
          · rw [if_neg hj2, if_neg (show ¬(idx1 ≤ j ∧ j < c) by omega)]
    · have hl' : ∀ j, idx1 + 1 ≤ j → j < c → alook n1 j = some (p j) :=
        fun j hj1 hj2 => hl j (by omega) hj2
      obtain ⟨out', n1', heq', hlo, hout', hlook'⟩ :=
        ih (idx1 + 1) n1 p hlen' hl' hp'
      refine ⟨p idx1 :: out', n1', ?_, ?_, ?_, ?_⟩
      · simp only [fcInner, hne0, Bool.false_eq_true, ite_false, ha, ebind_ok,
          halookE, hb, ndGeTruthy_leaf, decide_eq_true_eq]
        rw [if_neg hcond, heq', ebind_ok]
        rfl
      · simp [hlo]
      · intro k hk
        cases k with
        | zero =>
          simp only [List.getD_cons_zero, Nat.add_zero]
          rw [if_neg (by simp only [colOf_getD]; exact hcond)]
        | succ k2 =>
          have hk2 : k2 < es.length := by
            simpa using Nat.lt_of_succ_lt_succ hk
          have harith : idx1 + (k2 + 1) = idx1 + 1 + k2 := by omega
          simp only [List.getD_cons_succ, harith]
          exact hout' k2 hk2
      · intro j
        rw [hlook' j]
        by_cases hj1 : idx1 + 1 ≤ j ∧ j < c
        · rw [if_pos hj1, if_pos (show idx1 ≤ j ∧ j < c from ⟨by omega, hj1.2⟩)]
        · rw [if_neg hj1]
          by_cases hj2 : j = idx1
          · rw [hj2, hl idx1 (le_refl idx1) hidx1c,
              if_pos (show idx1 ≤ idx1 ∧ idx1 < c from ⟨le_refl idx1, hidx1c⟩),
              if_neg (show ¬((colOf rows idx1).getD (p idx1) 0 ≤
                (colOf rows idx1).getD index 0) by
                  simp only [colOf_getD]; exact hcond)]
          · rw [if_neg (show ¬(idx1 ≤ j ∧ j < c) by omega)]

theorem childrenOf_ofList (r : List Int) :
    childrenOf (ndOfList r) = .ok (r.map .leaf) := rfl

/-- Pointer bound and step rule of the 1-D walk, packaged for the
column-wise use in the dict walk. -/
theorem pureIdx_step_facts (col : List Int) (hcol : col ≠ []) (index : Nat)
    (h1 : 1 ≤ index) (hi : index < col.length) :
    (pureIdx col).getD (index - 1) 0 < index ∧
    (pureIdx col).getD index 0 =
      (if col.getD ((pureIdx col).getD (index - 1) 0) 0 ≤ col.getD index 0
        then index else (pureIdx col).getD (index - 1) 0) := by
  obtain ⟨-, -, -, -, hptr, hstep⟩ := cummax1_facts col hcol
  have hprev : index - 1 < col.length := by omega
  obtain ⟨hb, hlink⟩ := hptr (index - 1) hprev
  obtain ⟨-, f2⟩ := hstep index h1 hi
  refine ⟨by omega, ?_⟩
  rw [f2, hlink]

/-- Outer loop of the dict walk from row `index ≥ 1`, with the invariant
that every column pointer stores the 1-D walk's pointer for the rows
processed so far. -/
theorem fcAxis0_go (rows : List (List Int)) (c : Nat)
    (hne : rows ≠ []) (hc : ∀ r ∈ rows, r.length = c) :
    ∀ (rest : List (List Int)) (index : Nat) (n1 : List (Nat × Nat)),
      1 ≤ index → index + rest.length = rows.length →
      (∀ k, k < rest.length → rest.getD k [] = rows.getD (index + k) []) →
      (∀ j, j < c →
        alook n1 j = some ((pureIdx (colOf rows j)).getD (index - 1) 0)) →
      ∃ M : List (List Nat),
        fcAxis0 (rows.map ndOfList) n1 index (rest.map ndOfList) = .ok M ∧
        M.length = rest.length ∧
        (∀ k, k < rest.length → (M.getD k []).length = c ∧
          (∀ j, j < c → (M.getD k []).getD j 0 =
            (pureIdx (colOf rows j)).getD (index + k) 0)) := by
  have hrlen : ∀ i, i < rows.length → (rows.getD i []).length = c := by
    intro i hi
    exact hc _ (List.get?_mem (get?_of_getD rows i [] hi))
  have hcolne : ∀ j, colOf rows j ≠ [] := by
    intro j h
    apply hne
    have := colOf_length rows j
    rw [h] at this
    cases rows with
    | nil => rfl
    | cons a as => simp at this
  intro rest
  induction rest with
  | nil =>
    intro index n1 _ _ _ _
    exact ⟨[], rfl, rfl, fun k hk => absurd hk (by simp)⟩
  | cons row rest' ih =>
    intro index n1 hindex hlen hcorr hinv
    have hirows : index < rows.length := by
      simp only [List.length_cons] at hlen
      omega
    have hrow : row = rows.getD index [] := by
      have := hcorr 0 (by simp)
      simpa using this
    have hrowlen : row.length = c := by
      rw [hrow]
      exact hrlen index hirows
    have hpbound : ∀ j, 0 ≤ j → j < c →
        (pureIdx (colOf rows j)).getD (index - 1) 0 < index := by
      intro j _ hj
      exact (pureIdx_step_facts (colOf rows j) (hcolne j) index hindex
        (by rw [colOf_length]; exact hirows)).1
    obtain ⟨out, n1', heqI, houtlen, hout, hlook⟩ :=
      fcInner_step rows c hc index hindex hirows (row.map .leaf) 0 n1
        (fun j => (pureIdx (colOf rows j)).getD (index - 1) 0)
        (by simpa using hrowlen)
        (fun j _ hj => hinv j hj)
        hpbound
    have houtlen' : out.length = c := by
      rw [houtlen]
      simpa using hrowlen
    have houtval : ∀ j, j < c →
        out.getD j 0 = (pureIdx (colOf rows j)).getD index 0 := by
      intro j hj
      have h1 := hout j (by simpa [hrowlen] using hj)
      simp only [Nat.zero_add] at h1
      rw [h1, ((pureIdx_step_facts (colOf rows j) (hcolne j) index hindex
        (by rw [colOf_length]; exact hirows)).2)]
    have hinv' : ∀ j, j < c →
        alook n1' j = some ((pureIdx (colOf rows j)).getD (index + 1 - 1) 0) := by
      intro j hj
      rw [hlook j, if_pos ⟨Nat.zero_le j, hj⟩]
      have := (pureIdx_step_facts (colOf rows j) (hcolne j) index hindex
        (by rw [colOf_length]; exact hirows)).2
      rw [Nat.add_sub_cancel, this]
    have hcorr' : ∀ k, k < rest'.length →
        rest'.getD k [] = rows.getD (index + 1 + k) [] := by
      intro k hk
      have := hcorr (k + 1) (by simpa using Nat.succ_lt_succ hk)
      have harith : index + (k + 1) = index + 1 + k := by omega
      simpa [harith] using this
    obtain ⟨M', heqR, hMlen, hMfacts⟩ :=
      ih (index + 1) n1' (by omega)
        (by simp only [List.length_cons] at hlen; omega) hcorr' hinv'
    refine ⟨out :: M', ?_, by simp [hMlen], ?_⟩
    · show (do
        let p ← fcInner (rows.map ndOfList) n1 index 0 (row.map ND.leaf)
        let tail ← fcAxis0 (rows.map ndOfList) p.2 (index + 1) (rest'.map ndOfList)
        pure (p.1 :: tail) : Except String (List (List Nat))) = Except.ok (out :: M')
      rw [heqI, ebind_ok]
      show (do
        let tail ← fcAxis0 (rows.map ndOfList) n1' (index + 1) (rest'.map ndOfList)
        pure (out :: tail) : Except String (List (List Nat))) = Except.ok (out :: M')
      rw [heqR, ebind_ok]
      rfl
    · intro k hk
      cases k with
      | zero =>
        refine ⟨by simpa using houtlen', ?_⟩
        intro j hj
        simpa using houtval j hj
      | succ k2 =>
        have hk2 : k2 < rest'.length := by simpa using Nat.lt_of_succ_lt_succ hk
        obtain ⟨hMl, hMv⟩ := hMfacts k2 hk2
        refine ⟨by simpa using hMl, ?_⟩
        intro j hj
        have harith : index + (k2 + 1) = index + 1 + k2 := by omega
        simp only [List.getD_cons_succ, harith]
        exact hMv j hj

theorem fcAxis1_mat : ∀ rows : List (List Int),
    fcAxis1 (rows.map ndOfList) = .ok (rows.map pureIdx)
  | [] => rfl
  | r :: rs => by
    show (do
      let l ← findIndicesValues (r.map ND.leaf)
      let rest ← fcAxis1 (rs.map ndOfList)
      pure (l :: rest) : Except String (List (List Nat))) = _
    rw [findIndicesValues_map_leaf, ebind_ok, fcAxis1_mat rs, ebind_ok]
    rfl

theorem findCummaxIndices_mat_axis1 (rows : List (List Int)) (hne : rows ≠ []) :
    findCummaxIndices (ndOfMat rows) 1 = .ok (ndOfNatMat (rows.map pureIdx)) := by
  obtain ⟨r0, rs, rfl⟩ : ∃ r0 rs, rows = r0 :: rs := by
    cases rows with
    | nil => exact absurd rfl hne
    | cons a as => exact ⟨a, as, rfl⟩
  show (do
    let ls ← fcAxis1 ((r0 :: rs).map ndOfList)
    pure (ndOfNatMat ls) : Except String ND) = _
  rw [fcAxis1_mat, ebind_ok]
  rfl

theorem findCummaxIndices_mat_axis0 (rows : List (List Int)) (c : Nat)
    (hne : rows ≠ []) (hc : ∀ r ∈ rows, r.length = c) :
    ∃ M : List (List Nat),
      findCummaxIndices (ndOfMat rows) 0 = .ok (ndOfNatMat M) ∧
      M.length = rows.length ∧
      (∀ k, k < rows.length → (M.getD k []).length = c ∧
        (∀ j, j < c →
          (M.getD k []).getD j 0 = (pureIdx (colOf rows j)).getD k 0)) := by
  obtain ⟨r0, rs, rfl⟩ : ∃ r0 rs, rows = r0 :: rs := by
    cases rows with
    | nil => exact absurd rfl hne
    | cons a as => exact ⟨a, as, rfl⟩
  have hcolne : ∀ j, colOf (r0 :: rs) j ≠ [] := by
    intro j h
    have := colOf_length (r0 :: rs) j
    rw [h] at this
    simp at this
  have hr0len : r0.length = c := hc r0 (by simp)
  obtain ⟨n1', hinner, hlook⟩ :=
    fcInner_index0 ((r0 :: rs).map ndOfList) (r0.map .leaf) 0 []
  have hlook' : ∀ j, j < c →
      alook n1' j = some ((pureIdx (colOf (r0 :: rs) j)).getD (1 - 1) 0) := by
    intro j hj
    rw [hlook j, if_pos (by simp [hr0len]; omega)]
    obtain ⟨-, -, -, hhead, -, -⟩ := cummax1_facts (colOf (r0 :: rs) j) (hcolne j)
    rw [hhead]
  obtain ⟨M', heqR, hMlen, hMfacts⟩ :=
    fcAxis0_go (r0 :: rs) c (by simp) hc rs 1 n1' (le_refl 1)
      (by simp [Nat.add_comm])
      (by intro k hk
          have h1 : 1 + k = k + 1 := by omega
          rw [h1]
          rfl)
      hlook'
  refine ⟨List.replicate c 0 :: M', ?_, by simp [hMlen], ?_⟩
  · show (do
      let ls ← fcAxis0 ((r0 :: rs).map ndOfList) [] 0 ((r0 :: rs).map ndOfList)
      pure (ndOfNatMat ls) : Except String ND) = _
    have hstep : fcAxis0 ((r0 :: rs).map ndOfList) [] 0 ((r0 :: rs).map ndOfList) =
        .ok (List.replicate c 0 :: M') := by
      show (do
        let p ← fcInner ((r0 :: rs).map ndOfList) [] 0 0 (r0.map ND.leaf)
        let tail ← fcAxis0 ((r0 :: rs).map ndOfList) p.2 1 (rs.map ndOfList)
        pure (p.1 :: tail) : Except String (List (List Nat))) = _
      rw [hinner, ebind_ok]
      show (do
        let tail ← fcAxis0 ((r0 :: rs).map ndOfList) n1' 1 (rs.map ndOfList)
        pure (List.replicate (r0.map ND.leaf).length 0 :: tail) :
          Except String (List (List Nat))) = _
      rw [heqR, ebind_ok]
      simp only [List.length_map, hr0len]
      rfl
    rw [hstep, ebind_ok]
    rfl
  · intro k hk
    cases k with
    | zero =>
      refine ⟨by simp, ?_⟩
      intro j hj
      obtain ⟨-, -, -, hhead, -, -⟩ := cummax1_facts (colOf (r0 :: rs) j) (hcolne j)
      simp only [List.getD_cons_zero, hhead]
      simp [List.getD, List.get?_eq_getElem?, List.getElem?_replicate, hj]
    | succ k2 =>
      have hk2 : k2 < rs.length := by simpa using Nat.lt_of_succ_lt_succ hk
      obtain ⟨hMl, hMv⟩ := hMfacts k2 hk2
      refine ⟨by simpa using hMl, ?_⟩
      intro j hj
      have harith : 1 + k2 = k2 + 1 := by omega
      rw [harith] at hMv
      simp only [List.getD_cons_succ]
      exact hMv j hj

theorem ndZipL_leaves (f : Int → Int → Int) :
    ∀ (a b : List Int),
      ndZipL f (a.map .leaf) (b.map .leaf) = (List.zipWith f a b).map .leaf
  | [], _ => rfl
  | _ :: _, [] => rfl
  | x :: xs, y :: ys => by
    simp only [List.map_cons, ndZipL, List.zipWith_cons_cons]
    rw [ndZipL_leaves f xs ys]
    rfl

theorem ndZip_ofList (f : Int → Int → Int) (a b : List Int) :
    ndZip f (ndOfList a) (ndOfList b) = ndOfList (List.zipWith f a b) := by
  simp only [ndOfList, ndZip]
  rw [ndZipL_leaves f a b]

theorem ndScan0_ofMat (f : Int → Int → Int) (rows : List (List Int)) :
    ndScan f 0 (ndOfMat rows) = ndOfMat (scan1 (List.zipWith f) rows) := by
  simp only [ndOfMat, ndScan]
  rw [scan1_map_comm ndOfList (List.zipWith f) (ndZip f) (ndZip_ofList f) rows]

theorem ndScanL_eq_map (f : Int → Int → Int) (axis : Nat) :
    ∀ l : List ND, ndScanL f axis l = l.map (ndScan f axis)
  | [] => rfl
  | x :: xs => by
    simp only [ndScanL, List.map_cons]
    rw [ndScanL_eq_map f axis xs]

theorem ndScan1_ofMat (f : Int → Int → Int) (rows : List (List Int)) :
    ndScan f 1 (ndOfMat rows) = ndOfMat (rows.map (fun r => scan1 f r)) := by
  simp only [ndOfMat, ndScan, ndScanL_eq_map, List.map_map]
  apply congrArg
  apply List.map_congr_left
  intro r _
  exact ndScan_ofList f r

theorem zipWith_getD (f : Int → Int → Int) :
    ∀ (a b : List Int) (j : Nat), j < a.length → j < b.length →
      (List.zipWith f a b).getD j 0 = f (a.getD j 0) (b.getD j 0)
  | [], _, _ => by
    intro h _
    simp at h
  | _ :: _, [], _ => by
    intro _ h
    simp at h
  | x :: xs, y :: ys, 0 => by
    intro _ _
    rfl
  | x :: xs, y :: ys, j + 1 => by
    intro h1 h2
    simp only [List.zipWith_cons_cons, List.getD_cons_succ]
    exact zipWith_getD f xs ys j (by simpa using Nat.lt_of_succ_lt_succ h1)
      (by simpa using Nat.lt_of_succ_lt_succ h2)

theorem scan1Go_zipWith_len (g : Int → Int → Int) (c : Nat) :
    ∀ (rows : List (List Int)) (acc : List Int),
      acc.length = c → (∀ r ∈ rows, r.length = c) →
      ∀ i, i < rows.length →
        ((scan1Go (List.zipWith g) acc rows).getD i []).length = c
  | [], _ => by
    intro _ _ i hi
    simp at hi
  | r :: rs, acc => by
    intro hacc hreg i hi
    have hr : r.length = c := hreg r (by simp)
    have hacc' : (List.zipWith g acc r).length = c := by
      simp [List.length_zipWith, hacc, hr]
    cases i with
    | zero => simpa [scan1Go] using hacc'
    | succ k =>
      have hk : k < rs.length := by simpa using Nat.lt_of_succ_lt_succ hi
      simpa [scan1Go] using
        scan1Go_zipWith_len g c rs (List.zipWith g acc r) hacc'
          (fun r' hr' => hreg r' (by simp [hr'])) k hk

theorem scan1Go_zipWith_col (g : Int → Int → Int) (c : Nat) :
    ∀ (rows : List (List Int)) (acc : List Int),
      acc.length = c → (∀ r ∈ rows, r.length = c) →
      ∀ i j, i < rows.length → j < c →
        ((scan1Go (List.zipWith g) acc rows).getD i []).getD j 0 =
          (scan1Go g (acc.getD j 0) (rows.map (fun r => r.getD j 0))).getD i 0
  | [], _ => by
    intro _ _ i j hi _
    simp at hi
  | r :: rs, acc => by
    intro hacc hreg i j hi hj
    have hr : r.length = c := hreg r (by simp)
    have hacc' : (List.zipWith g acc r).length = c := by
      simp [List.length_zipWith, hacc, hr]
    cases i with
    | zero =>
      simp only [scan1Go, List.map_cons, List.getD_cons_zero]
      exact zipWith_getD g acc r j (by omega) (by omega)
    | succ k =>
      have hk : k < rs.length := by simpa using Nat.lt_of_succ_lt_succ hi
      simp only [scan1Go, List.map_cons, List.getD_cons_succ]
      rw [scan1Go_zipWith_col g c rs (List.zipWith g acc r) hacc'
        (fun r' hr' => hreg r' (by simp [hr'])) k j hk hj]
      rw [zipWith_getD g acc r j (by omega) (by omega)]

theorem scan1_zipWith_len (g : Int → Int → Int) (rows : List (List Int))
    (c : Nat) (hc : ∀ r ∈ rows, r.length = c) :
    ∀ i, i < rows.length →
      ((scan1 (List.zipWith g) rows).getD i []).length = c := by
  cases rows with
  | nil =>
    intro i hi
    simp at hi
  | cons r rs =>
    intro i hi
    have hr : r.length = c := hc r (by simp)
    cases i with
    | zero => simpa [scan1] using hr
    | succ k =>
      have hk : k < rs.length := by simpa using Nat.lt_of_succ_lt_succ hi
      simpa [scan1] using
        scan1Go_zipWith_len g c rs r hr
          (fun r' hr' => hc r' (by simp [hr'])) k hk

theorem scan1_zipWith_col (g : Int → Int → Int) (rows : List (List Int))
    (c : Nat) (hc : ∀ r ∈ rows, r.length = c) :
    ∀ i j, i < rows.length → j < c →
      ((scan1 (List.zipWith g) rows).getD i []).getD j 0 =
        (scan1 g (colOf rows j)).getD i 0 := by
  cases rows with
  | nil =>
    intro i j hi _
    simp at hi
  | cons r rs =>
    intro i j hi hj
    have hr : r.length = c := hc r (by simp)
    cases i with
    | zero =>
      simp [scan1, colOf]
    | succ k =>
      have hk : k < rs.length := by simpa using Nat.lt_of_succ_lt_succ hi
      show ((scan1Go (List.zipWith g) r rs).getD k []).getD j 0 =
        (scan1Go g (r.getD j 0) (rs.map (fun row => row.getD j 0))).getD k 0
      exact scan1Go_zipWith_col g c rs r hr
        (fun r' hr' => hc r' (by simp [hr'])) k j hk hj

theorem cummax_mat_axis1 (rows : List (List Int)) (hne : rows ≠ []) :
    cummax (ndOfMat rows) 1 false false =
      .ok (ndOfMat (rows.map (fun r => scan1 maxOp r)),
           ndOfNatMat (rows.map pureIdx)) := by
  simp only [cummax, Bool.or_false, Bool.false_and, ite_false]
  rw [findCummaxIndices_mat_axis1 rows hne, ebind_ok, ndScan1_ofMat]
  rfl

theorem cummax_mat_axis0 (rows : List (List Int)) (c : Nat)
    (hne : rows ≠ []) (hc : ∀ r ∈ rows, r.length = c) :
    ∃ M : List (List Nat),
      cummax (ndOfMat rows) 0 false false =
        .ok (ndOfMat (scan1 (List.zipWith maxOp) rows), ndOfNatMat M) ∧
      M.length = rows.length ∧
      (∀ k, k < rows.length → (M.getD k []).length = c ∧
        (∀ j, j < c →
          (M.getD k []).getD j 0 = (pureIdx (colOf rows j)).getD k 0)) := by
  obtain ⟨M, hfind, hMlen, hMfacts⟩ := findCummaxIndices_mat_axis0 rows c hne hc
  refine ⟨M, ?_, hMlen, hMfacts⟩
  simp only [cummax, Bool.or_false, Bool.false_and, ite_false]
  rw [hfind, ebind_ok, ndScan0_ofMat]
  rfl

/-- C2 (amended): for rank-2 arrays (nonempty along axis 0, regular) and
either valid axis, inclusive forward cumulative-max-with-index performs
the running-maximum walk independently for every combination of the
non-scan coordinates: along axis 1 every row's outputs are the 1-D walk
of that row; along axis 0 every column's outputs are the 1-D walk of that
column.  (The original claim extended this to every rank ≥ 2 — refuted by
the single rank-3 input of the counterexample, shape (2,2,2) with axis 0,
where the index computation raises; other rank-3 inputs can instead
return successfully with a mis-shaped index array.) -/
theorem claim_C2_cummax_rank2_rowwise (rows : List (List Int)) (c : Nat)
    (hne : rows ≠ []) (hc : ∀ r ∈ rows, r.length = c) :
    (cummax (ndOfMat rows) 1 false false =
      .ok (ndOfMat (rows.map (fun r => scan1 maxOp r)),
           ndOfNatMat (rows.map pureIdx))) ∧
    (∃ V : List (List Int), ∃ M : List (List Nat),
      cummax (ndOfMat rows) 0 false false = .ok (ndOfMat V, ndOfNatMat M) ∧
      V.length = rows.length ∧ M.length = rows.length ∧
      (∀ i, i < rows.length →
        (V.getD i []).length = c ∧ (M.getD i []).length = c) ∧
      (∀ i j, i < rows.length → j < c →
        (V.getD i []).getD j 0 = (scan1 maxOp (colOf rows j)).getD i 0 ∧
        (M.getD i []).getD j 0 = (pureIdx (colOf rows j)).getD i 0)) := by
  refine ⟨cummax_mat_axis1 rows hne, ?_⟩
  obtain ⟨M, heq, hMlen, hMfacts⟩ := cummax_mat_axis0 rows c hne hc
  refine ⟨scan1 (List.zipWith maxOp) rows, M, heq, scan1_length _ _, hMlen,
    ?_, ?_⟩
  · intro i hi
    exact ⟨scan1_zipWith_len maxOp rows c hc i hi, (hMfacts i hi).1⟩
  · intro i j hi hj
    exact ⟨scan1_zipWith_col maxOp rows c hc i j hi hj, (hMfacts i hi).2 j hj⟩

/-- C2 counterexample: on the rank-3 array of shape (2,2,2) with the valid
scan axis 0, `cummax` does not succeed — the index helper compares whole
sub-arrays and python raises the array-truth-value `ValueError` — refuting
the claim that the operation succeeds for every rank ≥ 2. -/
theorem claim_C2_counterexample :
    cummax (ND.node [ND.node [ND.node [ND.leaf 1, ND.leaf 2],
                              ND.node [ND.leaf 3, ND.leaf 4]],
                     ND.node [ND.node [ND.leaf 5, ND.leaf 6],
                              ND.node [ND.leaf 7, ND.leaf 8]]])
      0 false false = .error "ambiguous truth value of array comparison" := rfl

/-- Witness for C2 at the regular 2×2 matrix [[3,5],[5,2]]. -/
theorem claim_C2_witness :
    (cummax (ndOfMat [[3, 5], [5, 2]]) 1 false false =
      .ok (ndOfMat (([[3, 5], [5, 2]] : List (List Int)).map
             (fun r => scan1 maxOp r)),
           ndOfNatMat (([[3, 5], [5, 2]] : List (List Int)).map pureIdx))) ∧
    (∃ V : List (List Int), ∃ M : List (List Nat),
      cummax (ndOfMat [[3, 5], [5, 2]]) 0 false false =
        .ok (ndOfMat V, ndOfNatMat M) ∧
      V.length = ([[3, 5], [5, 2]] : List (List Int)).length ∧
      M.length = ([[3, 5], [5, 2]] : List (List Int)).length ∧
      (∀ i, i < ([[3, 5], [5, 2]] : List (List Int)).length →
        (V.getD i []).length = 2 ∧ (M.getD i []).length = 2) ∧
      (∀ i j, i < ([[3, 5], [5, 2]] : List (List Int)).length → j < 2 →
        (V.getD i []).getD j 0 =
          (scan1 maxOp (colOf [[3, 5], [5, 2]] j)).getD i 0 ∧
        (M.getD i []).getD j 0 =
          (pureIdx (colOf [[3, 5], [5, 2]] j)).getD i 0)) :=
  claim_C2_cummax_rank2_rowwise [[3, 5], [5, 2]] 2 (by decide) (by decide)

/-- C5 counterexample: for an `int8` input (not boolean) the cumulative-sum
output dtype is not the input dtype — the unconditional
`dtype = _infer_dtype(x.dtype)` promotes it to the default integer type. -/
theorem claim_C5_counterexample :
    cumsumDtype DType.int8 ≠ DType.int8 ∧ DType.int8 ≠ DType.bool := by
  decide

/-- C5 (amended): the cumulative-sum output dtype for `dtype=None` follows
the `_infer_dtype` rule — the input type is kept unless it is narrower
than the runtime default type of its kind, in which case that default is
used; booleans go to the default integer type (`int32`), and so do the
narrow integer types `int8`/`int16`, while `float16` goes to `float32`
and the wide types are kept.  (The original claim — output type equals
input type for every non-boolean input — fails for the narrow types.) -/
theorem claim_C5_cumsum_dtype_table :
    cumsumDtype DType.bool = DType.int32 ∧
    cumsumDtype DType.int8 = DType.int32 ∧
    cumsumDtype DType.int16 = DType.int32 ∧
    cumsumDtype DType.int32 = DType.int32 ∧
    cumsumDtype DType.int64 = DType.int64 ∧
    cumsumDtype DType.float16 = DType.float32 ∧
    cumsumDtype DType.float32 = DType.float32 ∧
    cumsumDtype DType.float64 = DType.float64 ∧
    (∀ d : DType, cumsumDtype d = _infer_dtype d) := by
  refine ⟨rfl, rfl, rfl, rfl, rfl, rfl, rfl, rfl, fun d => rfl⟩

/-- C6 counterexample: for the 0×3 input reduced along axis 1 with the
fractional correction 1/2, the reduced-axis size is 3 ≠ 0, yet the result
is NaN (the code tests the *total* size `x.size == 0`), refuting "NaN
exactly when the reduced size is zero". -/
theorem claim_C6_counterexample :
    varFractional ⟨0, 3, fun _ _ => 0⟩ (some [1]) (1 / 2) = .nan ∧
    reducedSize ⟨0, 3, fun _ _ => 0⟩ [1] = 3 := ⟨rfl, rfl⟩

/-- C6 (amended): for a fractional correction the fractional path of `var`
returns NaN exactly when the *total* input size is zero (this covers every
zero reduced-size case: a zero reduced size forces a zero total size); for
nonzero total size the result is the population variance rescaled by
`size / (size − correction)` with `size` the product of the reduced-axis
lengths. -/
theorem claim_C6_var_fractional (m : Mat) (axes : List Nat) (corr : ℚ) :
    (varFractional m (some axes) corr = .nan ↔ m.r * m.c = 0) ∧
    ((∀ a ∈ axes, a ≤ 1) → reducedSize m axes = 0 →
      varFractional m (some axes) corr = .nan) ∧
    (m.r * m.c ≠ 0 → varFractional m (some axes) corr =
      .vals ((npVar m axes).map
        (fun v => v * ((reducedSize m axes : ℚ) /
          ((reducedSize m axes : ℚ) - corr))))) := by
  have hprod : reducedSize m axes =
      (axes.map (fun a => [m.r, m.c].getD a 1)).prod := by
    rw [List.prod_eq_foldl, List.foldl_map]
    rfl
  refine ⟨?_, ?_, ?_⟩
  · by_cases h : m.r * m.c = 0
    · simp [varFractional, h]
    · simp [varFractional, h]
  · intro hax hzero
    have h0 : (0 : Nat) ∈ axes.map (fun a => [m.r, m.c].getD a 1) := by
      rw [hprod] at hzero
      exact (List.prod_eq_zero_iff).1 hzero
    obtain ⟨a, ha, hfa⟩ := List.mem_map.1 h0
    have htot : m.r * m.c = 0 := by
      have ha1 : a ≤ 1 := hax a ha
      interval_cases a
      · simp only [List.getD_cons_zero] at hfa
        rw [hfa]
        exact Nat.zero_mul _
      · simp only [List.getD_cons_succ, List.getD_cons_zero] at hfa
        rw [hfa]
        exact Nat.mul_zero _
    simp [varFractional, htot]
  · intro h
    simp [varFractional, h]

/-- Witness for C6 at the 2×3 matrix of zeros, axes = [1],
correction = 1/2. -/
theorem claim_C6_witness :
    (varFractional ⟨2, 3, fun _ _ => 0⟩ (some [1]) (1 / 2) = .nan ↔
      (2 : Nat) * 3 = 0) ∧
    ((∀ a ∈ ([1] : List Nat), a ≤ 1) →
      reducedSize ⟨2, 3, fun _ _ => 0⟩ [1] = 0 →
      varFractional ⟨2, 3, fun _ _ => 0⟩ (some [1]) (1 / 2) = .nan) ∧
    ((2 : Nat) * 3 ≠ 0 →
      varFractional ⟨2, 3, fun _ _ => 0⟩ (some [1]) (1 / 2) =
        .vals ((npVar ⟨2, 3, fun _ _ => 0⟩ [1]).map
          (fun v => v * ((reducedSize ⟨2, 3, fun _ _ => 0⟩ [1] : ℚ) /
            ((reducedSize ⟨2, 3, fun _ _ => 0⟩ [1] : ℚ) - 1 / 2))))) :=
  claim_C6_var_fractional ⟨2, 3, fun _ _ => 0⟩ [1] (1 / 2)

/-! ## Shape (skeleton) preservation machinery -/

theorem skelL_eq_map : ∀ l : List ND, skelL l = l.map skel
  | [] => rfl
  | a :: as => by
    simp only [skelL, List.map_cons]
    rw [skelL_eq_map as]

/-- Children of a regular node: all regular, all of equal skeleton. -/
theorem sreg_node_facts (l : List ND) (h : sreg (skel (ND.node l))) :
    (∀ a ∈ l, sreg (skel a)) ∧ ∀ a ∈ l, ∀ b ∈ l, skel a = skel b := by
  rw [skel, skelL_eq_map] at h
  cases l with
  | nil => exact ⟨by simp, by simp⟩
  | cons h0 t =>
    rw [List.map_cons] at h
    simp only [sreg] at h
    have hall : ∀ a ∈ t, skel a = skel h0 :=
      fun a ha => h.2 (skel a) (List.mem_map_of_mem skel ha)
    constructor
    · intro a ha
      rcases List.mem_cons.1 ha with rfl | ha'
      · exact h.1
      · rw [hall a ha']
        exact h.1
    · intro a ha b hb
      rcases List.mem_cons.1 ha with rfl | ha' <;>
        rcases List.mem_cons.1 hb with rfl | hb'
      · rfl
      · rw [hall b hb']
      · rw [hall a ha']
      · rw [hall a ha', hall b hb']

mutual
theorem zerosLike_skel : ∀ x : ND, skel (zerosLike x) = skel x
  | .leaf _ => rfl
  | .node l => by
    simp only [zerosLike, skel]
    rw [zerosLikeL_skel l]
theorem zerosLikeL_skel : ∀ l : List ND, skelL (zerosLikeL l) = skelL l
  | [] => rfl
  | a :: as => by
    simp only [zerosLikeL, skelL]
    rw [zerosLike_skel a, zerosLikeL_skel as]
end

mutual
theorem onesLike_skel : ∀ x : ND, skel (onesLike x) = skel x
  | .leaf _ => rfl
  | .node l => by
    simp only [onesLike, skel]
    rw [onesLikeL_skel l]
theorem onesLikeL_skel : ∀ l : List ND, skelL (onesLikeL l) = skelL l
  | [] => rfl
  | a :: as => by
    simp only [onesLikeL, skelL]
    rw [onesLike_skel a, onesLikeL_skel as]
end

mutual
theorem ndZip_skel : ∀ (f : Int → Int → Int) (a b : ND),
    skel a = skel b → skel (ndZip f a b) = skel a
  | _, .leaf _, .leaf _, _ => rfl
  | f, .node l, .node m, h => by
    simp only [skel, Skel.node.injEq] at h
    simp only [ndZip, skel]
    rw [ndZipL_skel f l m h]
  | _, .leaf _, .node _, h => by simp [skel] at h
  | _, .node _, .leaf _, h => by simp [skel] at h
theorem ndZipL_skel : ∀ (f : Int → Int → Int) (la lb : List ND),
    skelL la = skelL lb → skelL (ndZipL f la lb) = skelL la
  | _, [], _, _ => rfl
  | _, _ :: _, [], h => by simp [skelL] at h
  | f, a :: as, b :: bs, h => by
    simp only [skelL, List.cons.injEq] at h
    simp only [ndZipL, skelL]
    rw [ndZip_skel f a b h.1, ndZipL_skel f as bs h.2]
end

theorem scan1Go_ndZip_skelL (f : Int → Int → Int) (s : Skel) :
    ∀ (l : List ND) (acc : ND), skel acc = s → (∀ a ∈ l, skel a = s) →
      skelL (scan1Go (ndZip f) acc l) = skelL l
  | [], _, _, _ => rfl
  | b :: bs, acc, hacc, hall => by
    have hb : skel b = s := hall b (by simp)
    have hz : skel (ndZip f acc b) = skel acc :=
      ndZip_skel f acc b (by rw [hacc, hb])
    simp only [scan1Go, skelL]
    rw [scan1Go_ndZip_skelL f s bs (ndZip f acc b) (by rw [hz, hacc])
      (fun a ha => hall a (by simp [ha]))]
    rw [hz, hacc, hb]

mutual
theorem ndScan_skel : ∀ (f : Int → Int → Int) (axis : Nat) (x : ND),
    sreg (skel x) → skel (ndScan f axis x) = skel x
  | _, _, .leaf _, _ => rfl
  | f, 0, .node l, h => by
    obtain ⟨-, huni⟩ := sreg_node_facts l h
    simp only [ndScan, skel]
    cases l with
    | nil => rfl
    | cons h0 t =>
      show Skel.node (skelL (h0 :: scan1Go (ndZip f) h0 t)) =
        Skel.node (skelL (h0 :: t))
      simp only [skelL]
      rw [scan1Go_ndZip_skelL f (skel h0) t h0 rfl
        (fun a ha => huni a (by simp [ha]) h0 (by simp))]
  | f, a + 1, .node l, h => by
    obtain ⟨hall, -⟩ := sreg_node_facts l h
    simp only [ndScan, skel]
    rw [ndScanL_skel f a l hall]
theorem ndScanL_skel : ∀ (f : Int → Int → Int) (axis : Nat) (l : List ND),
    (∀ a ∈ l, sreg (skel a)) → skelL (ndScanL f axis l) = skelL l
  | _, _, [], _ => rfl
  | f, axis, a :: as, h => by
    simp only [ndScanL, skelL]
    rw [ndScan_skel f axis a (h a (by simp)),
      ndScanL_skel f axis as (fun b hb => h b (by simp [hb]))]
end

mutual
theorem ndFlip_skel : ∀ (axis : Nat) (x : ND),
    sreg (skel x) → skel (ndFlip axis x) = skel x
  | _, .leaf _, _ => rfl
  | 0, .node l, h => by
    obtain ⟨-, huni⟩ := sreg_node_facts l h
    simp only [ndFlip, skel, skelL_eq_map]
    cases l with
    | nil => rfl
    | cons h0 t =>
      have hrep : (h0 :: t).map skel =
          List.replicate ((h0 :: t).map skel).length (skel h0) := by
        apply List.eq_replicate_of_mem
        intro s hs
        obtain ⟨a, ha, rfl⟩ := List.mem_map.1 hs
        exact huni a ha h0 (by simp)
      rw [List.map_reverse, hrep, List.reverse_replicate]
  | a + 1, .node l, h => by
    obtain ⟨hall, -⟩ := sreg_node_facts l h
    simp only [ndFlip, skel]
    rw [ndFlipL_skel a l hall]
theorem ndFlipL_skel : ∀ (axis : Nat) (l : List ND),
    (∀ a ∈ l, sreg (skel a)) → skelL (ndFlipL axis l) = skelL l
  | _, [], _ => rfl
  | axis, a :: as, h => by
    simp only [ndFlipL, skelL]
    rw [ndFlip_skel axis a (h a (by simp)),
      ndFlipL_skel axis as (fun b hb => h b (by simp [hb]))]
end

mutual
theorem exShift_skel : ∀ (fill : ND → ND) (axis : Nat) (x : ND),
    (∀ a, skel (fill a) = skel a) → sreg (skel x) →
    skel (exShift fill axis x) = skel x
  | _, _, .leaf _, _, _ => rfl
  | fill, 0, .node l, hfill, h => by
    obtain ⟨-, huni⟩ := sreg_node_facts l h
    cases hl : l.getLast? with
    | none =>
      have : l = [] := List.getLast?_eq_none_iff.1 hl
      subst this
      rfl
    | some lst =>
      have hmem : lst ∈ l := List.mem_of_mem_getLast? hl
      have hred : exShift fill 0 (ND.node l) = ND.node (fill lst :: l.dropLast) := by
        simp only [exShift, hl]
      rw [hred]
      simp only [skel, skelL_eq_map, List.map_cons, hfill lst]
      cases l with
      | nil => simp at hl
      | cons h0 t =>
        have hrep : ∀ a ∈ (h0 :: t), skel a = skel h0 :=
          fun a ha => huni a ha h0 (by simp)
        have h1 : (h0 :: t).map skel =
            List.replicate ((h0 :: t).length) (skel h0) := by
          have := List.eq_replicate_of_mem (l := (h0 :: t).map skel)
            (a := skel h0) (by
              intro s hs
              obtain ⟨a, ha, rfl⟩ := List.mem_map.1 hs
              exact hrep a ha)
          simpa using this
        have h2 : ((h0 :: t).dropLast).map skel =
            List.replicate ((h0 :: t).dropLast.length) (skel h0) := by
          have := List.eq_replicate_of_mem (l := ((h0 :: t).dropLast).map skel)
            (a := skel h0) (by
              intro s hs
              obtain ⟨a, ha, rfl⟩ := List.mem_map.1 hs
              exact hrep a (List.dropLast_subset _ ha))
          simpa using this
        rw [hrep lst hmem, h1, h2, List.length_dropLast]
        simp only [List.length_cons, Nat.add_sub_cancel]
        rfl
  | fill, a + 1, .node l, hfill, h => by
    obtain ⟨hall, -⟩ := sreg_node_facts l h
    simp only [exShift, skel]
    rw [exShiftL_skel fill a l hfill hall]
theorem exShiftL_skel : ∀ (fill : ND → ND) (axis : Nat) (l : List ND),
    (∀ a, skel (fill a) = skel a) → (∀ a ∈ l, sreg (skel a)) →
    skelL (exShiftL fill axis l) = skelL l
  | _, _, [], _, _ => rfl
  | fill, axis, a :: as, hfill, h => by
    simp only [exShiftL, skelL]
    rw [exShift_skel fill axis a hfill (h a (by simp)),
      exShiftL_skel fill axis as hfill (fun b hb => h b (by simp [hb]))]
end

/-! ## Shapes of the embeddings and of the mode transforms -/

theorem skel_ndOfList (x : List Int) :
    skel (ndOfList x) = .node (List.replicate x.length .leaf) := by
  simp only [ndOfList, skel, skelL_eq_map, List.map_map]
  congr 1
  have h := List.eq_replicate_of_mem
    (l := x.map (skel ∘ ND.leaf)) (a := Skel.leaf)
    (by
      intro s hs
      obtain ⟨v, -, rfl⟩ := List.mem_map.1 hs
      rfl)
  simpa using h

theorem skel_ndOfNat (l : List Nat) :
    skel (ndOfNat l) = .node (List.replicate l.length .leaf) := by
  simp only [ndOfNat, skel, skelL_eq_map, List.map_map]
  congr 1
  have h := List.eq_replicate_of_mem
    (l := l.map (skel ∘ fun n => ND.leaf (Int.ofNat n))) (a := Skel.leaf)
    (by
      intro s hs
      obtain ⟨v, -, rfl⟩ := List.mem_map.1 hs
      rfl)
  simpa using h

theorem skel_ndOfMat (rows : List (List Int)) (c : Nat)
    (hc : ∀ r ∈ rows, r.length = c) :
    skel (ndOfMat rows) =
      .node (List.replicate rows.length (Skel.node (List.replicate c .leaf))) := by
  simp only [ndOfMat, skel, skelL_eq_map, List.map_map]
  congr 1
  have h := List.eq_replicate_of_mem
    (l := rows.map (skel ∘ ndOfList))
    (a := Skel.node (List.replicate c .leaf))
    (by
      intro s hs
      obtain ⟨r, hr, rfl⟩ := List.mem_map.1 hs
      show skel (ndOfList r) = _
      rw [skel_ndOfList, hc r hr])
  simpa using h

theorem sreg_node_replicate (n : Nat) (s : Skel) (hs : sreg s) :
    sreg (.node (List.replicate n s)) := by
  cases n with
  | zero => simp [sreg]
  | succ m =>
    simp only [List.replicate_succ, sreg]
    exact ⟨hs, fun t ht => List.eq_of_mem_replicate ht⟩

theorem sreg_leaf : sreg .leaf := by simp [sreg]

theorem sreg_ndOfList (x : List Int) : sreg (skel (ndOfList x)) := by
  rw [skel_ndOfList]
  exact sreg_node_replicate _ _ sreg_leaf

theorem sreg_ndOfMat (rows : List (List Int)) (c : Nat)
    (hc : ∀ r ∈ rows, r.length = c) : sreg (skel (ndOfMat rows)) := by
  rw [skel_ndOfMat rows c hc]
  exact sreg_node_replicate _ _ (sreg_node_replicate _ _ sreg_leaf)

theorem ndOfNat_eq (l : List Nat) : ndOfNat l = ndOfList (l.map Int.ofNat) := by
  simp [ndOfNat, ndOfList, List.map_map, Function.comp]

theorem ndOfNatMat_eq (M : List (List Nat)) :
    ndOfNatMat M = ndOfMat (M.map (fun r => r.map Int.ofNat)) := by
  simp only [ndOfNatMat, ndOfMat, List.map_map]
  congr 1
  apply List.map_congr_left
  intro r _
  exact ndOfNat_eq r

theorem ndFlip0_ofList (x : List Int) :
    ndFlip 0 (ndOfList x) = ndOfList x.reverse := by
  simp [ndOfList, ndFlip, List.map_reverse]

theorem ndFlipL_eq_map (axis : Nat) : ∀ l : List ND,
    ndFlipL axis l = l.map (ndFlip axis)
  | [] => rfl
  | a :: as => by
    simp only [ndFlipL, List.map_cons]
    rw [ndFlipL_eq_map axis as]

theorem ndFlip0_ofMat (rows : List (List Int)) :
    ndFlip 0 (ndOfMat rows) = ndOfMat rows.reverse := by
  simp [ndOfMat, ndFlip, List.map_reverse]

theorem ndFlip1_ofMat (rows : List (List Int)) :
    ndFlip 1 (ndOfMat rows) = ndOfMat (rows.map List.reverse) := by
  simp only [ndOfMat, ndFlip, ndFlipL_eq_map, List.map_map]
  congr 1
  apply List.map_congr_left
  intro r _
  exact ndFlip0_ofList r

theorem zerosLikeL_eq_map : ∀ l : List ND, zerosLikeL l = l.map zerosLike
  | [] => rfl
  | a :: as => by
    simp only [zerosLikeL, List.map_cons]
    rw [zerosLikeL_eq_map as]

theorem zerosLike_ofList (r : List Int) :
    zerosLike (ndOfList r) = ndOfList (r.map (fun _ => 0)) := by
  simp only [ndOfList, zerosLike, zerosLikeL_eq_map, List.map_map]
  congr 1

theorem exShift_zeros_ofList_total (r : List Int) :
    exShift zerosLike 0 (ndOfList r) = ndOfList (mshift1 r) := by
  cases hr : r.getLast? with
  | none =>
    have h0 : r = [] := List.getLast?_eq_none_iff.1 hr
    subst h0
    rfl
  | some a =>
    have hne : r ≠ [] := by
      intro h
      subst h
      simp at hr
    rw [exShift_zeros_ofList r hne]
    simp [mshift1, hr]

theorem mshift1_length (r : List Int) : (mshift1 r).length = r.length := by
  cases hr : r.getLast? with
  | none =>
    have h0 : r = [] := List.getLast?_eq_none_iff.1 hr
    subst h0
    rfl
  | some a =>
    have hne : r ≠ [] := by
      intro h
      subst h
      simp at hr
    have hpos : 0 < r.length := List.length_pos.2 hne
    simp [mshift1, hr, List.length_dropLast]
    omega

theorem exShiftL_eq_map (fill : ND → ND) (axis : Nat) : ∀ l : List ND,
    exShiftL fill axis l = l.map (exShift fill axis)
  | [] => rfl
  | a :: as => by
    simp only [exShiftL, List.map_cons]
    rw [exShiftL_eq_map fill axis as]

theorem exShift0_ofMat (rows : List (List Int)) (lr : List Int)
    (hlr : rows.getLast? = some lr) :
    exShift zerosLike 0 (ndOfMat rows) =
      ndOfMat ((lr.map (fun _ => (0 : Int))) :: rows.dropLast) := by
  simp only [ndOfMat, exShift]
  rw [List.getLast?_map, hlr]
  simp only [Option.map_some']
  rw [zerosLike_ofList]
  simp [List.map_dropLast]

theorem exShift1_ofMat (rows : List (List Int)) :
    exShift zerosLike 1 (ndOfMat rows) = ndOfMat (rows.map mshift1) := by
  simp only [ndOfMat, exShift, exShiftL_eq_map, List.map_map]
  congr 1
  apply List.map_congr_left
  intro r _
  exact exShift_zeros_ofList_total r

theorem getD_eq_getElem' (l : List α) (d : α) (i : Nat) (h : i < l.length) :
    l.getD i d = l[i] := List.getD_eq_getElem l d h

/-- Every flip of a regular nonempty matrix is again a regular nonempty
matrix of the same dimensions. -/
theorem ndFlip_ofMat_shape (rows : List (List Int)) (c axis : Nat)
    (hne : rows ≠ []) (hc : ∀ row ∈ rows, row.length = c)
    (haxis : axis = 0 ∨ axis = 1) :
    ∃ A, ndFlip axis (ndOfMat rows) = ndOfMat A ∧ A ≠ [] ∧
      (∀ row ∈ A, row.length = c) ∧ A.length = rows.length := by
  rcases haxis with rfl | rfl
  · exact ⟨rows.reverse, ndFlip0_ofMat rows, by simpa using hne,
      fun row hrow => hc row (List.mem_reverse.1 hrow), by simp⟩
  · refine ⟨rows.map List.reverse, ndFlip1_ofMat rows, by simpa using hne, ?_,
      by simp⟩
    intro row hrow
    obtain ⟨r, hr, rfl⟩ := List.mem_map.1 hrow
    simpa using hc r hr

/-- Every exclusive zero-shift of a regular nonempty matrix is again a
regular nonempty matrix of the same dimensions. -/
theorem exShift_ofMat_shape (rows : List (List Int)) (c axis : Nat)
    (hne : rows ≠ []) (hc : ∀ row ∈ rows, row.length = c)
    (haxis : axis = 0 ∨ axis = 1) :
    ∃ A, exShift zerosLike axis (ndOfMat rows) = ndOfMat A ∧ A ≠ [] ∧
      (∀ row ∈ A, row.length = c) ∧ A.length = rows.length := by
  rcases haxis with rfl | rfl
  · obtain ⟨lr, hlr⟩ : ∃ lr, rows.getLast? = some lr := by
      cases h : rows.getLast? with
      | none => exact absurd (List.getLast?_eq_none_iff.1 h) hne
      | some lr => exact ⟨lr, rfl⟩
    have hlrmem : lr ∈ rows := List.mem_of_mem_getLast? hlr
    have hpos : 0 < rows.length := List.length_pos.2 hne
    refine ⟨(lr.map (fun _ => (0 : Int))) :: rows.dropLast,
      exShift0_ofMat rows lr hlr, by simp, ?_, ?_⟩
    · intro row hrow
      rcases List.mem_cons.1 hrow with rfl | hrow'
      · simpa using hc lr hlrmem
      · exact hc row (List.dropLast_subset _ hrow')
    · simp only [List.length_cons, List.length_dropLast]
      omega
  · refine ⟨rows.map mshift1, exShift1_ofMat rows, by simpa using hne, ?_,
      by simp⟩
    intro row hrow
    obtain ⟨r, hr, rfl⟩ := List.mem_map.1 hrow
    rw [mshift1_length]
    exact hc r hr

/-- The index helper on a regular nonempty matrix returns a matrix of the
same dimensions, for either valid axis. -/
theorem findCummaxIndices_mat_shape (rows : List (List Int)) (c axis : Nat)
    (hne : rows ≠ []) (hc : ∀ row ∈ rows, row.length = c)
    (haxis : axis = 0 ∨ axis = 1) :
    ∃ M : List (List Nat), findCummaxIndices (ndOfMat rows) axis =
        .ok (ndOfNatMat M) ∧
      M.length = rows.length ∧ ∀ row ∈ M, row.length = c := by
  rcases haxis with rfl | rfl
  · obtain ⟨M, heq, hMlen, hMfacts⟩ := findCummaxIndices_mat_axis0 rows c hne hc
    refine ⟨M, heq, hMlen, ?_⟩
    intro row hrow
    obtain ⟨k, hk, rfl⟩ := List.mem_iff_getElem.1 hrow
    rw [← getD_eq_getElem' M [] k hk]
    exact (hMfacts k (by omega)).1
  · refine ⟨rows.map pureIdx, findCummaxIndices_mat_axis1 rows hne, by simp, ?_⟩
    intro row hrow
    obtain ⟨r, hr, rfl⟩ := List.mem_map.1 hrow
    rw [pureIdx_length]
    exact hc r hr

/-- The inclusive scan along either valid axis of a regular matrix is a
regular matrix of the same dimensions. -/
theorem ndScan_mat_shape (f : Int → Int → Int) (rows : List (List Int))
    (c axis : Nat) (hc : ∀ row ∈ rows, row.length = c)
    (haxis : axis = 0 ∨ axis = 1) :
    ∃ V : List (List Int), ndScan f axis (ndOfMat rows) = ndOfMat V ∧
      V.length = rows.length ∧ ∀ row ∈ V, row.length = c := by
  rcases haxis with rfl | rfl
  · refine ⟨scan1 (List.zipWith f) rows, ndScan0_ofMat f rows,
      scan1_length _ _, ?_⟩
    intro row hrow
    obtain ⟨k, hk, rfl⟩ := List.mem_iff_getElem.1 hrow
    have hk' : k < rows.length := by
      rw [scan1_length] at hk
      exact hk
    rw [← getD_eq_getElem' _ [] k hk]
    exact scan1_zipWith_len f rows c hc k hk'
  · refine ⟨rows.map (fun r => scan1 f r), ndScan1_ofMat f rows, by simp, ?_⟩
    intro row hrow
    obtain ⟨r, hr, rfl⟩ := List.mem_map.1 hrow
    rw [scan1_length]
    exact hc r hr

/-- Two matrices with the same dimensions have the same skeleton. -/
theorem skel_ofMat_eq (A rows : List (List Int)) (c : Nat)
    (hA : ∀ row ∈ A, row.length = c) (hr : ∀ row ∈ rows, row.length = c)
    (hlen : A.length = rows.length) :
    skel (ndOfMat A) = skel (ndOfMat rows) := by
  rw [skel_ndOfMat A c hA, skel_ndOfMat rows c hr, hlen]

/-- Shape preservation of `cumsum` on every regular array, for every axis
and (exclusive, reverse) mode. -/
theorem cumsum_skel (x : ND) (axis : Nat) (e r : Bool)
    (h : sreg (skel x)) : skel (cumsum x axis e r) = skel x := by
  have hflip : skel (ndFlip axis x) = skel x := ndFlip_skel axis x h
  have hflipreg : sreg (skel (ndFlip axis x)) := by rw [hflip]; exact h
  cases e <;> cases r
  · exact ndScan_skel _ axis x h
  · show skel (ndFlip axis (ndScan (· + ·) axis (ndFlip axis x))) = skel x
    have h1 : skel (ndScan (· + ·) axis (ndFlip axis x)) = skel (ndFlip axis x) :=
      ndScan_skel _ axis _ hflipreg
    have h1reg : sreg (skel (ndScan (· + ·) axis (ndFlip axis x))) := by
      rw [h1]; exact hflipreg
    rw [ndFlip_skel axis _ h1reg, h1, hflip]
  · show skel (ndScan (· + ·) axis (exShift zerosLike axis x)) = skel x
    have h1 : skel (exShift zerosLike axis x) = skel x :=
      exShift_skel zerosLike axis x zerosLike_skel h
    have h1reg : sreg (skel (exShift zerosLike axis x)) := by rw [h1]; exact h
    rw [ndScan_skel _ axis _ h1reg, h1]
  · show skel (ndFlip axis
      (exShift zerosLike axis (ndScan (· + ·) axis (ndFlip axis x)))) = skel x
    have h1 : skel (ndScan (· + ·) axis (ndFlip axis x)) = skel (ndFlip axis x) :=
      ndScan_skel _ axis _ hflipreg
    have h1reg : sreg (skel (ndScan (· + ·) axis (ndFlip axis x))) := by
      rw [h1]; exact hflipreg
    have h2 : skel (exShift zerosLike axis (ndScan (· + ·) axis (ndFlip axis x))) =
        skel (ndScan (· + ·) axis (ndFlip axis x)) :=
      exShift_skel zerosLike axis _ zerosLike_skel h1reg
    have h2reg : sreg (skel (exShift zerosLike axis
        (ndScan (· + ·) axis (ndFlip axis x)))) := by
      rw [h2]; exact h1reg
    rw [ndFlip_skel axis _ h2reg, h2, h1, hflip]

/-- Shape preservation of `cumprod` on every regular array, for every axis
and (exclusive, reverse) mode. -/
theorem cumprod_skel (x : ND) (axis : Nat) (e r : Bool)
    (h : sreg (skel x)) : skel (cumprod x axis e r) = skel x := by
  have hflip : skel (ndFlip axis x) = skel x := ndFlip_skel axis x h
  have hflipreg : sreg (skel (ndFlip axis x)) := by rw [hflip]; exact h
  cases e <;> cases r
  · exact ndScan_skel _ axis x h
  · show skel (ndFlip axis (ndScan (· * ·) axis (ndFlip axis x))) = skel x
    have h1 : skel (ndScan (· * ·) axis (ndFlip axis x)) = skel (ndFlip axis x) :=
      ndScan_skel _ axis _ hflipreg
    have h1reg : sreg (skel (ndScan (· * ·) axis (ndFlip axis x))) := by
      rw [h1]; exact hflipreg
    rw [ndFlip_skel axis _ h1reg, h1, hflip]
  · show skel (ndScan (· * ·) axis (exShift onesLike axis x)) = skel x
    have h1 : skel (exShift onesLike axis x) = skel x :=
      exShift_skel onesLike axis x onesLike_skel h
    have h1reg : sreg (skel (exShift onesLike axis x)) := by rw [h1]; exact h
    rw [ndScan_skel _ axis _ h1reg, h1]
  · show skel (ndFlip axis
      (exShift onesLike axis (ndScan (· * ·) axis (ndFlip axis x)))) = skel x
    have h1 : skel (ndScan (· * ·) axis (ndFlip axis x)) = skel (ndFlip axis x) :=
      ndScan_skel _ axis _ hflipreg
    have h1reg : sreg (skel (ndScan (· * ·) axis (ndFlip axis x))) := by
      rw [h1]; exact hflipreg
    have h2 : skel (exShift onesLike axis (ndScan (· * ·) axis (ndFlip axis x))) =
        skel (ndScan (· * ·) axis (ndFlip axis x)) :=
      exShift_skel onesLike axis _ onesLike_skel h1reg
    have h2reg : sreg (skel (exShift onesLike axis
        (ndScan (· * ·) axis (ndFlip axis x)))) := by
      rw [h2]; exact h1reg
    rw [ndFlip_skel axis _ h2reg, h2, h1, hflip]

/-- Whenever `cummax` succeeds on a regular array, the value output has
the input's shape (the index output need not — see the counterexample). -/
theorem cummax_skel_val (x : ND) (axis : Nat) (e r : Bool) (v ind : ND)
    (hreg : sreg (skel x)) (h : cummax x axis e r = .ok (v, ind)) :
    skel v = skel x := by
  have hflip : skel (ndFlip axis x) = skel x := ndFlip_skel axis x hreg
  have hflipreg : sreg (skel (ndFlip axis x)) := by rw [hflip]; exact hreg
  cases e <;> cases r
  · cases hfind : findCummaxIndices x axis with
    | error err =>
      rw [show cummax x axis false false = (do
        let indices ← findCummaxIndices x axis
        return (ndScan maxOp axis x, indices)) from rfl, hfind] at h
      exact absurd h (by simp [Except.bind])
    | ok i0 =>
      rw [show cummax x axis false false = (do
        let indices ← findCummaxIndices x axis
        return (ndScan maxOp axis x, indices)) from rfl, hfind, ebind_ok] at h
      cases h
      exact ndScan_skel maxOp axis x hreg
  · cases hfind : findCummaxIndices (ndFlip axis x) axis with
    | error err =>
      rw [show cummax x axis false true = (do
        let indices ← findCummaxIndices (ndFlip axis x) axis
        return (ndFlip axis (ndScan maxOp axis (ndFlip axis x)),
          ndFlip axis indices)) from rfl, hfind] at h
      exact absurd h (by simp [Except.bind])
    | ok i0 =>
      rw [show cummax x axis false true = (do
        let indices ← findCummaxIndices (ndFlip axis x) axis
        return (ndFlip axis (ndScan maxOp axis (ndFlip axis x)),
          ndFlip axis indices)) from rfl, hfind, ebind_ok] at h
      cases h
      have h1 : skel (ndScan maxOp axis (ndFlip axis x)) = skel (ndFlip axis x) :=
        ndScan_skel maxOp axis _ hflipreg
      have h1reg : sreg (skel (ndScan maxOp axis (ndFlip axis x))) := by
        rw [h1]; exact hflipreg
      rw [ndFlip_skel axis _ h1reg, h1, hflip]
  · cases hfind : findCummaxIndices (exShift zerosLike axis x) axis with
    | error err =>
      rw [show cummax x axis true false = (do
        let indices ← findCummaxIndices (exShift zerosLike axis x) axis
        return (ndScan maxOp axis (exShift zerosLike axis x), indices))
        from rfl, hfind] at h
      exact absurd h (by simp [Except.bind])
    | ok i0 =>
      rw [show cummax x axis true false = (do
        let indices ← findCummaxIndices (exShift zerosLike axis x) axis
        return (ndScan maxOp axis (exShift zerosLike axis x), indices))
        from rfl, hfind, ebind_ok] at h
      cases h
      have h1 : skel (exShift zerosLike axis x) = skel x :=
        exShift_skel zerosLike axis x zerosLike_skel hreg
      have h1reg : sreg (skel (exShift zerosLike axis x)) := by
        rw [h1]; exact hreg
      rw [ndScan_skel maxOp axis _ h1reg, h1]
  · cases hfind : findCummaxIndices (ndFlip axis x) axis with
    | error err =>
      rw [show cummax x axis true true = (do
        let indices ← findCummaxIndices (ndFlip axis x) axis
        return (ndFlip axis (exShift zerosLike axis
            (ndScan maxOp axis (ndFlip axis x))),
          ndFlip axis (exShift zerosLike axis indices))) from rfl, hfind] at h
      exact absurd h (by simp [Except.bind])
    | ok i0 =>
      rw [show cummax x axis true true = (do
        let indices ← findCummaxIndices (ndFlip axis x) axis
        return (ndFlip axis (exShift zerosLike axis
            (ndScan maxOp axis (ndFlip axis x))),
          ndFlip axis (exShift zerosLike axis indices))) from rfl, hfind,
        ebind_ok] at h
      cases h
      have h1 : skel (ndScan maxOp axis (ndFlip axis x)) = skel (ndFlip axis x) :=
        ndScan_skel maxOp axis _ hflipreg
      have h1reg : sreg (skel (ndScan maxOp axis (ndFlip axis x))) := by
        rw [h1]; exact hflipreg
      have h2 : skel (exShift zerosLike axis (ndScan maxOp axis (ndFlip axis x))) =
          skel (ndScan maxOp axis (ndFlip axis x)) :=
        exShift_skel zerosLike axis _ zerosLike_skel h1reg
      have h2reg : sreg (skel (exShift zerosLike axis
          (ndScan maxOp axis (ndFlip axis x)))) := by
        rw [h2]; exact h1reg
      rw [ndFlip_skel axis _ h2reg, h2, h1, hflip]

theorem ndFlip0_ofNat (l : List Nat) :
    ndFlip 0 (ndOfNat l) = ndOfNat l.reverse := by
  simp [ndOfNat, ndFlip, List.map_reverse]

theorem exShift_zeros_ofNat (l : List Nat) (hl : l ≠ []) :
    exShift zerosLike 0 (ndOfNat l) = ndOfNat (0 :: l.dropLast) := by
  simp only [ndOfNat, exShift]
  rw [List.getLast?_map]
  cases hlast : l.getLast? with
  | none =>
    simp only [List.getLast?_eq_none_iff] at hlast
    exact absurd hlast hl
  | some a =>
    simp only [Option.map_some']
    show ND.node (zerosLike (ND.leaf (Int.ofNat a)) :: (l.map _).dropLast) = _
    simp [zerosLike, ← List.map_dropLast]

theorem cummax_1d_reverse (x : List Int) (hx : x ≠ []) :
    cummax (ndOfList x) 0 false true =
      .ok (ndOfList (scan1 maxOp x.reverse).reverse,
           ndOfNat (pureIdx x.reverse).reverse) := by
  have hxr : x.reverse ≠ [] := by simpa using hx
  show (do
    let indices ← findCummaxIndices (ndFlip 0 (ndOfList x)) 0
    return (ndFlip 0 (ndScan maxOp 0 (ndFlip 0 (ndOfList x))),
      ndFlip 0 indices) : Except String (ND × ND)) = _
  rw [ndFlip0_ofList, findCummaxIndices_ofList x.reverse hxr 0, ebind_ok,
    ndScan_ofList, ndFlip0_ofList, ndFlip0_ofNat]
  rfl

theorem cummax_1d_exclusive_reverse (x : List Int) (hx : x ≠ []) :
    cummax (ndOfList x) 0 true true =
      .ok (ndOfList (0 :: (scan1 maxOp x.reverse).dropLast).reverse,
           ndOfNat (0 :: (pureIdx x.reverse).dropLast).reverse) := by
  have hxr : x.reverse ≠ [] := by simpa using hx
  have hscanne : scan1 maxOp x.reverse ≠ [] := by
    intro h
    have := scan1_length maxOp x.reverse
    rw [h] at this
    exact hxr (List.length_eq_zero.1 this.symm)
  have hpurene : pureIdx x.reverse ≠ [] := by
    intro h
    have := pureIdx_length x.reverse
    rw [h] at this
    exact hxr (List.length_eq_zero.1 this.symm)
  show (do
    let indices ← findCummaxIndices (ndFlip 0 (ndOfList x)) 0
    return (ndFlip 0 (exShift zerosLike 0
        (ndScan maxOp 0 (ndFlip 0 (ndOfList x)))),
      ndFlip 0 (exShift zerosLike 0 indices)) : Except String (ND × ND)) = _
  rw [ndFlip0_ofList, findCummaxIndices_ofList x.reverse hxr 0, ebind_ok,
    ndScan_ofList, exShift_zeros_ofList _ hscanne, exShift_zeros_ofNat _ hpurene,
    ndFlip0_ofList, ndFlip0_ofNat]
  rfl

/-- Rank-1 shape preservation of `cummax` in all four modes: both outputs
have the input's shape. -/
theorem cummax_rank1_shape (x : List Int) (hx : x ≠ []) (e r : Bool) :
    ∃ v ind, cummax (ndOfList x) 0 e r = .ok (v, ind) ∧
      skel v = skel (ndOfList x) ∧ skel ind = skel (ndOfList x) := by
  have hpos : 0 < x.length := List.length_pos.2 hx
  have hlen : ∀ y : List Int, y.length = x.length →
      skel (ndOfList y) = skel (ndOfList x) := by
    intro y hy
    rw [skel_ndOfList, skel_ndOfList, hy]
  have hlenN : ∀ y : List Nat, y.length = x.length →
      skel (ndOfNat y) = skel (ndOfList x) := by
    intro y hy
    rw [skel_ndOfNat, skel_ndOfList, hy]
  cases e <;> cases r
  · exact ⟨_, _, cummax_1d x hx,
      hlen _ (scan1_length _ _), hlenN _ (pureIdx_length _)⟩
  · refine ⟨_, _, cummax_1d_reverse x hx, hlen _ ?_, hlenN _ ?_⟩
    · simp [scan1_length]
    · simp [pureIdx_length]
  · refine ⟨_, _, cummax_1d_exclusive x hx, hlen _ ?_, hlenN _ ?_⟩
    · rw [scan1_length]
      simp only [List.length_cons, List.length_dropLast]
      omega
    · rw [pureIdx_length]
      simp only [List.length_cons, List.length_dropLast]
      omega
  · refine ⟨_, _, cummax_1d_exclusive_reverse x hx, hlen _ ?_, hlenN _ ?_⟩
    · simp only [List.length_reverse, List.length_cons, List.length_dropLast,
        scan1_length]
      omega
    · simp only [List.length_reverse, List.length_cons, List.length_dropLast,
        pureIdx_length]
      omega

/-- A list has the length of a nonempty list only if it is nonempty. -/
theorem ne_nil_of_length_eq (A B : List α) (h : A.length = B.length)
    (hB : B ≠ []) : A ≠ [] := by
  intro h0
  rw [h0] at h
  exact hB (List.length_eq_zero.1 (by simpa using h.symm))

/-- Rank-2 shape preservation of `cummax` in all four modes and both valid
axes: both outputs have the input's shape. -/
theorem cummax_rank2_shape (rows : List (List Int)) (c axis : Nat)
    (e r : Bool) (hne : rows ≠ []) (hc : ∀ row ∈ rows, row.length = c)
    (haxis : axis = 0 ∨ axis = 1) :
    ∃ v ind, cummax (ndOfMat rows) axis e r = .ok (v, ind) ∧
      skel v = skel (ndOfMat rows) ∧ skel ind = skel (ndOfMat rows) := by
  have hskelN : ∀ M : List (List Nat), M.length = rows.length →
      (∀ row ∈ M, row.length = c) →
      skel (ndOfNatMat M) = skel (ndOfMat rows) := by
    intro M hMlen hMc
    rw [ndOfNatMat_eq]
    apply skel_ofMat_eq _ _ c _ hc (by simpa using hMlen)
    intro row hrow
    obtain ⟨row0, hrow0, rfl⟩ := List.mem_map.1 hrow
    simpa using hMc row0 hrow0
  cases e <;> cases r
  · -- inclusive forward
    obtain ⟨M, hfind, hMlen, hMc⟩ :=
      findCummaxIndices_mat_shape rows c axis hne hc haxis
    obtain ⟨V, hscan, hVlen, hVc⟩ := ndScan_mat_shape maxOp rows c axis hc haxis
    refine ⟨ndScan maxOp axis (ndOfMat rows), ndOfNatMat M, ?_, ?_, ?_⟩
    · show (do
        let indices ← findCummaxIndices (ndOfMat rows) axis
        return (ndScan maxOp axis (ndOfMat rows), indices) :
          Except String (ND × ND)) =
        .ok (ndScan maxOp axis (ndOfMat rows), ndOfNatMat M)
      rw [hfind, ebind_ok]
      rfl
    · rw [hscan]
      exact skel_ofMat_eq V rows c hVc hc hVlen
    · exact hskelN M hMlen hMc
  · -- reverse
    obtain ⟨A, hflipx, hAne, hAc, hAlen⟩ :=
      ndFlip_ofMat_shape rows c axis hne hc haxis
    obtain ⟨M, hfind, hMlen, hMc⟩ :=
      findCummaxIndices_mat_shape A c axis hAne hAc haxis
    obtain ⟨V, hscan, hVlen, hVc⟩ := ndScan_mat_shape maxOp A c axis hAc haxis
    obtain ⟨V2, hflipV, -, hV2c, hV2len⟩ :=
      ndFlip_ofMat_shape V c axis (ne_nil_of_length_eq V A hVlen hAne) hVc haxis
    have hMc' : ∀ row ∈ M.map (fun row => row.map Int.ofNat), row.length = c := by
      intro row hrow
      obtain ⟨row0, hrow0, rfl⟩ := List.mem_map.1 hrow
      simpa using hMc row0 hrow0
    obtain ⟨M2, hflipM, -, hM2c, hM2len⟩ :=
      ndFlip_ofMat_shape (M.map (fun row => row.map Int.ofNat)) c axis
        (ne_nil_of_length_eq _ A (by simpa using hMlen) hAne) hMc' haxis
    have hmap : (M.map (fun row => row.map Int.ofNat)).length = M.length := by
      simp
    refine ⟨ndFlip axis (ndScan maxOp axis (ndFlip axis (ndOfMat rows))),
      ndFlip axis (ndOfNatMat M), ?_, ?_, ?_⟩
    · show (do
        let indices ← findCummaxIndices (ndFlip axis (ndOfMat rows)) axis
        return (ndFlip axis (ndScan maxOp axis (ndFlip axis (ndOfMat rows))),
          ndFlip axis indices) : Except String (ND × ND)) =
        .ok (ndFlip axis (ndScan maxOp axis (ndFlip axis (ndOfMat rows))),
          ndFlip axis (ndOfNatMat M))
      rw [hflipx, hfind, ebind_ok, ← hflipx]
      rfl
    · rw [hflipx, hscan, hflipV]
      apply skel_ofMat_eq V2 rows c hV2c hc
      omega
    · rw [ndOfNatMat_eq, hflipM]
      apply skel_ofMat_eq M2 rows c hM2c hc
      omega
  · -- exclusive
    obtain ⟨A, hshiftx, hAne, hAc, hAlen⟩ :=
      exShift_ofMat_shape rows c axis hne hc haxis
    obtain ⟨M, hfind, hMlen, hMc⟩ :=
      findCummaxIndices_mat_shape A c axis hAne hAc haxis
    obtain ⟨V, hscan, hVlen, hVc⟩ := ndScan_mat_shape maxOp A c axis hAc haxis
    refine ⟨ndScan maxOp axis (exShift zerosLike axis (ndOfMat rows)),
      ndOfNatMat M, ?_, ?_, ?_⟩
    · show (do
        let indices ← findCummaxIndices
          (exShift zerosLike axis (ndOfMat rows)) axis
        return (ndScan maxOp axis (exShift zerosLike axis (ndOfMat rows)),
          indices) : Except String (ND × ND)) =
        .ok (ndScan maxOp axis (exShift zerosLike axis (ndOfMat rows)),
          ndOfNatMat M)
      rw [hshiftx, hfind, ebind_ok, ← hshiftx]
      rfl
    · rw [hshiftx, hscan]
      apply skel_ofMat_eq V rows c hVc hc
      omega
    · apply hskelN M _ hMc
      omega
  · -- exclusive and reverse
    obtain ⟨A, hflipx, hAne, hAc, hAlen⟩ :=
      ndFlip_ofMat_shape rows c axis hne hc haxis
    obtain ⟨M, hfind, hMlen, hMc⟩ :=
      findCummaxIndices_mat_shape A c axis hAne hAc haxis
    obtain ⟨V, hscan, hVlen, hVc⟩ := ndScan_mat_shape maxOp A c axis hAc haxis
    obtain ⟨V2, hshiftV, hV2ne, hV2c, hV2len⟩ :=
      exShift_ofMat_shape V c axis (ne_nil_of_length_eq V A hVlen hAne) hVc haxis
    obtain ⟨V3, hflipV2, -, hV3c, hV3len⟩ :=
      ndFlip_ofMat_shape V2 c axis hV2ne hV2c haxis
    have hMc' : ∀ row ∈ M.map (fun row => row.map Int.ofNat), row.length = c := by
      intro row hrow
      obtain ⟨row0, hrow0, rfl⟩ := List.mem_map.1 hrow
      simpa using hMc row0 hrow0
    obtain ⟨M2, hshiftM, hM2ne, hM2c, hM2len⟩ :=
      exShift_ofMat_shape (M.map (fun row => row.map Int.ofNat)) c axis
        (ne_nil_of_length_eq _ A (by simpa using hMlen) hAne) hMc' haxis
    obtain ⟨M3, hflipM2, -, hM3c, hM3len⟩ :=
      ndFlip_ofMat_shape M2 c axis hM2ne hM2c haxis
    have hmap : (M.map (fun row => row.map Int.ofNat)).length = M.length := by
      simp
    refine ⟨ndFlip axis (exShift zerosLike axis
        (ndScan maxOp axis (ndFlip axis (ndOfMat rows)))),
      ndFlip axis (exShift zerosLike axis (ndOfNatMat M)), ?_, ?_, ?_⟩
    · show (do
        let indices ← findCummaxIndices (ndFlip axis (ndOfMat rows)) axis
        return (ndFlip axis (exShift zerosLike axis
            (ndScan maxOp axis (ndFlip axis (ndOfMat rows)))),
          ndFlip axis (exShift zerosLike axis indices)) :
            Except String (ND × ND)) =
        .ok (ndFlip axis (exShift zerosLike axis
            (ndScan maxOp axis (ndFlip axis (ndOfMat rows)))),
          ndFlip axis (exShift zerosLike axis (ndOfNatMat M)))
      rw [hflipx, hfind, ebind_ok, ← hflipx]
      rfl
    · rw [hflipx, hscan, hshiftV, hflipV2]
      apply skel_ofMat_eq V3 rows c hV3c hc
      omega
    · rw [ndOfNatMat_eq, hshiftM, hflipM2]
      apply skel_ofMat_eq M3 rows c hM3c hc
      omega

/-- C7 counterexample: on the valid rank-3 input of shape (1,2,2) with
axis 0 (inclusive forward), `cummax` returns successfully but its index
array has shape (1,2) — not the input's shape — so shape preservation
fails as stated for the cummax index output. -/
theorem claim_C7_counterexample :
    cummax (ND.node [ND.node [ND.node [ND.leaf 1, ND.leaf 2],
                              ND.node [ND.leaf 3, ND.leaf 4]]]) 0 false false =
      .ok (ND.node [ND.node [ND.node [ND.leaf 1, ND.leaf 2],
                             ND.node [ND.leaf 3, ND.leaf 4]]],
           ND.node [ND.node [ND.leaf 0, ND.leaf 0]]) ∧
    skel (ND.node [ND.node [ND.leaf 0, ND.leaf 0]]) ≠
      skel (ND.node [ND.node [ND.node [ND.leaf 1, ND.leaf 2],
                              ND.node [ND.leaf 3, ND.leaf 4]]]) :=
  ⟨rfl, fun h => absurd (congrArg sdepth h) (by decide)⟩

/-- C7 (amended): shape preservation holds for `cumsum` and `cumprod` on
every regular array, for every axis and every (exclusive, reverse) mode;
it holds for the `cummax` value output whenever `cummax` succeeds on a
regular array; and both `cummax` outputs have the input's shape for
rank-1 and rank-2 inputs (nonempty along the first axis, regular, valid
axis) in all four modes.  (The original claim also asserted it for the
cummax index array at every rank — refuted by the rank-3
counterexample.) -/
theorem claim_C7_shape_preservation :
    (∀ (x : ND) (axis : Nat) (e r : Bool), sreg (skel x) →
      skel (cumsum x axis e r) = skel x) ∧
    (∀ (x : ND) (axis : Nat) (e r : Bool), sreg (skel x) →
      skel (cumprod x axis e r) = skel x) ∧
    (∀ (x : ND) (axis : Nat) (e r : Bool) (v ind : ND), sreg (skel x) →
      cummax x axis e r = .ok (v, ind) → skel v = skel x) ∧
    (∀ (x : List Int) (e r : Bool), x ≠ [] →
      ∃ v ind, cummax (ndOfList x) 0 e r = .ok (v, ind) ∧
        skel v = skel (ndOfList x) ∧ skel ind = skel (ndOfList x)) ∧
    (∀ (rows : List (List Int)) (c axis : Nat) (e r : Bool), rows ≠ [] →
      (∀ row ∈ rows, row.length = c) → (axis = 0 ∨ axis = 1) →
      ∃ v ind, cummax (ndOfMat rows) axis e r = .ok (v, ind) ∧
        skel v = skel (ndOfMat rows) ∧ skel ind = skel (ndOfMat rows)) :=
  ⟨cumsum_skel, cumprod_skel,
    fun x axis e r v ind hreg h => cummax_skel_val x axis e r v ind hreg h,
    fun x e r hx => cummax_rank1_shape x hx e r,
    fun rows c axis e r hne hc haxis =>
      cummax_rank2_shape rows c axis e r hne hc haxis⟩

/-- Witness for C7: exclusive-reverse cumsum on a 2×2 matrix, exclusive
cumprod on a 1-D array, cummax value/both outputs at concrete regular
inputs. -/
theorem claim_C7_witness :
    skel (cumsum (ndOfMat [[1, 2], [3, 4]]) 0 true true) =
      skel (ndOfMat [[1, 2], [3, 4]]) ∧
    skel (cumprod (ndOfList [5, 6]) 0 true false) = skel (ndOfList [5, 6]) ∧
    skel (ndOfList [7, 7]) = skel (ndOfList [7, 1]) ∧
    (∃ v ind, cummax (ndOfList [7, 1]) 0 true false = .ok (v, ind) ∧
      skel v = skel (ndOfList [7, 1]) ∧ skel ind = skel (ndOfList [7, 1])) ∧
    (∃ v ind, cummax (ndOfMat [[1, 2], [3, 4]]) 1 true true = .ok (v, ind) ∧
      skel v = skel (ndOfMat [[1, 2], [3, 4]]) ∧
      skel ind = skel (ndOfMat [[1, 2], [3, 4]])) :=
  ⟨claim_C7_shape_preservation.1 _ 0 true true
      (sreg_ndOfMat [[1, 2], [3, 4]] 2 (by decide)),
   claim_C7_shape_preservation.2.1 _ 0 true false (sreg_ndOfList [5, 6]),
   claim_C7_shape_preservation.2.2.1 (ndOfList [7, 1]) 0 false false
      (ndOfList [7, 7]) (ndOfNat [0, 0]) (sreg_ndOfList [7, 1]) rfl,
   claim_C7_shape_preservation.2.2.2.1 [7, 1] true false (by decide),
   claim_C7_shape_preservation.2.2.2.2 [[1, 2], [3, 4]] 2 1 true true
      (by decide) (by decide) (Or.inr rfl)⟩

end IvyStat
